import Mathlib

/-!
# Pathfinding Algorithm Visualizer — verification of the core engine

This file embeds the multi-algorithm shortest-path engine and comparison
harness of the repository: the graph model (weighted directed multigraph),
the four path algorithms (Dijkstra, A*, BFS, Bellman-Ford), the execution
harness `run_algorithm` and the comparison engine `compare_all_algorithms`
from `src/app.py`, together with the standalone wrappers from
`src/algorithms/`.

The four search procedures themselves live in the external `networkx`
library, whose code is not part of the repository; they are modelled from
the specification (frontier-based search keyed by accumulated length for
Dijkstra/A*, level-order traversal for BFS, |V|−1 relaxation passes plus a
detection pass for Bellman-Ford).  Edge lengths are embedded as integers:
every property claimed of the engine depends only on ordering and sums of
weights, and integer weights keep concrete runs kernel-computable.
-/

namespace PathViz

/-- Node keys: networkx/osmnx node identifiers (opaque integers). -/
abbrev Node := Nat

/-- One directed edge of the multigraph, carrying its `length` attribute.
Parallel edges between the same node pair are separate entries of the
edge list, in insertion order (networkx assigns them keys 0, 1, …). -/
structure Edge where
  src : Node
  dst : Node
  length : ℤ
deriving DecidableEq, Repr

/-- A directed multigraph as provided to the engine: the node list, the
edge list, and optional geographic coordinates per node. -/
structure Graph where
  nodes : List Node
  edges : List Edge
  coords : Node → Option (ℚ × ℚ)

/-- Lengths of the parallel edges from `u` to `v`, in insertion order
(index 0 first), i.e. the lengths found in `G[u][v]`. -/
def parallelLengths (G : Graph) (u v : Node) : List ℤ :=
  (G.edges.filter (fun e => e.src == u && e.dst == v)).map (·.length)

/-- `u` has at least one edge to `v`. -/
def Adj (G : Graph) (u v : Node) : Prop :=
  parallelLengths G u v ≠ []

instance (G : Graph) : DecidableRel (Adj G) := fun u v =>
  inferInstanceAs (Decidable (parallelLengths G u v ≠ []))

/-- Minimum length among the parallel edges from `u` to `v`, if any:
this is the weight the networkx weight function uses on a multigraph
(`min(attr.get(weight) for attr in G[u][v].values())`). -/
def minLen? (G : Graph) (u v : Node) : Option ℤ :=
  match parallelLengths G u v with
  | [] => none
  | x :: xs => some (xs.foldl min x)

/-- Total variant of `minLen?`, defaulting to `0` where no edge exists
(only ever read along genuine walks). -/
def wmin (G : Graph) (u v : Node) : ℤ :=
  (minLen? G u v).getD 0

/-- Length of the parallel edge with key 0 (the first inserted one),
defaulting to 0: this is `G[u][v][0].get('length', 0)` from the BFS
branch of the harness in `src/app.py`. -/
def edge0Len (G : Graph) (u v : Node) : ℤ :=
  ((parallelLengths G u v).head?).getD 0

/-- Weight of a node sequence obtained by summing, for each consecutive
pair, the minimum-length parallel edge: this is what
`nx.path_weight(G, path, weight="length")` computes on a multigraph. -/
def walkWeight (G : Graph) : List Node → ℤ
  | [] => 0
  | [_] => 0
  | u :: v :: rest => wmin G u v + walkWeight G (v :: rest)

/-- Alias mirroring the library entry point used by the harness. -/
def nx_path_weight (G : Graph) (p : List Node) : ℤ :=
  walkWeight G p

/-- Weight of a node sequence obtained by summing, for each consecutive
pair, the index-0 parallel edge's length: the ad-hoc sum computed by the
BFS branch of `run_algorithm` in `src/app.py`. -/
def edge0Weight (G : Graph) : List Node → ℤ
  | [] => 0
  | [_] => 0
  | u :: v :: rest => edge0Len G u v + edge0Weight G (v :: rest)

/-- `p` is a path from `s` to `t` in the sense of the data model: a
nonempty ordered node sequence starting at `s`, ending at `t`, with
consecutive nodes joined by at least one edge.  (Node repetitions are not
excluded, so this is the class of walks.) -/
def IsWalkFrom (G : Graph) (s t : Node) (p : List Node) : Prop :=
  p.head? = some s ∧ p.getLast? = some t ∧ p.Chain' (Adj G)

/-- Executable adjacency-chain check used for deciding `IsWalkFrom`. -/
def chainAdjB (G : Graph) : List Node → Bool
  | [] => true
  | [_] => true
  | x :: y :: rest => decide (Adj G x y) && chainAdjB G (y :: rest)

theorem chainAdjB_iff (G : Graph) :
    ∀ l : List Node, chainAdjB G l = true ↔ l.Chain' (Adj G)
  | [] => by simp [chainAdjB]
  | [x] => by simp [chainAdjB]
  | x :: y :: rest => by
    rw [List.chain'_cons]
    simp only [chainAdjB, Bool.and_eq_true, decide_eq_true_eq]
    rw [chainAdjB_iff G (y :: rest)]

instance (G : Graph) (s t : Node) (p : List Node) : Decidable (IsWalkFrom G s t p) :=
  decidable_of_iff (p.head? = some s ∧ p.getLast? = some t ∧ chainAdjB G p = true)
    (by unfold IsWalkFrom; rw [chainAdjB_iff])

/-- `t` is reachable from `s` in the directed sense. -/
def Reach (G : Graph) (s t : Node) : Prop :=
  ∃ p, IsWalkFrom G s t p

/-- All edge endpoints are listed graph nodes. -/
def Wf (G : Graph) : Prop :=
  ∀ e ∈ G.edges, e.src ∈ G.nodes ∧ e.dst ∈ G.nodes

instance (G : Graph) : Decidable (Wf G) :=
  inferInstanceAs (Decidable (∀ e ∈ G.edges, e.src ∈ G.nodes ∧ e.dst ∈ G.nodes))

/-- All edge lengths are non-negative. -/
def NonnegEdges (G : Graph) : Prop :=
  ∀ e ∈ G.edges, 0 ≤ e.length

instance (G : Graph) : Decidable (NonnegEdges G) :=
  inferInstanceAs (Decidable (∀ e ∈ G.edges, 0 ≤ e.length))

/-- No cycle of negative total weight is reachable from `s`. -/
def NoNegCycleFrom (G : Graph) (s : Node) : Prop :=
  ∀ x q, Reach G s x → IsWalkFrom G x x q → 0 ≤ walkWeight G q

section BasicLemmas

theorem foldl_min_le_init (a : ℤ) (xs : List ℤ) : xs.foldl min a ≤ a := by
  induction xs generalizing a with
  | nil => simp
  | cons x xs ih => exact le_trans (ih (min a x)) (min_le_left a x)

theorem foldl_min_le_mem (a : ℤ) (xs : List ℤ) : ∀ y ∈ xs, xs.foldl min a ≤ y := by
  induction xs generalizing a with
  | nil => intro y hy; simp at hy
  | cons x xs ih =>
    intro y hy
    rcases List.mem_cons.mp hy with h | h
    · rw [h]
      exact le_trans (foldl_min_le_init (min a x) xs) (min_le_right a x)
    · exact ih (min a x) y h

theorem foldl_min_mem (a : ℤ) (xs : List ℤ) : xs.foldl min a = a ∨ xs.foldl min a ∈ xs := by
  induction xs generalizing a with
  | nil => simp
  | cons x xs ih =>
    rcases ih (min a x) with h | h
    · rcases le_total a x with hax | hax
      · left; simpa [min_eq_left hax] using h
      · right; rw [List.foldl_cons, h, min_eq_right hax]; exact List.mem_cons_self x xs
    · right; exact List.mem_cons_of_mem x h

theorem minLen?_le (G : Graph) (u v : Node) (m : ℤ) (hm : minLen? G u v = some m) :
    ∀ y ∈ parallelLengths G u v, m ≤ y := by
  unfold minLen? at hm
  intro y hy
  rcases hpl : parallelLengths G u v with _ | ⟨x, xs⟩
  · rw [hpl] at hy; simp at hy
  · rw [hpl] at hm hy
    simp only [Option.some.injEq] at hm
    rcases List.mem_cons.mp hy with h | h
    · subst h; rw [← hm]; exact foldl_min_le_init y xs
    · rw [← hm]; exact foldl_min_le_mem x xs y h

theorem minLen?_mem (G : Graph) (u v : Node) (m : ℤ) (hm : minLen? G u v = some m) :
    m ∈ parallelLengths G u v := by
  unfold minLen? at hm
  rcases hpl : parallelLengths G u v with _ | ⟨x, xs⟩
  · rw [hpl] at hm; simp at hm
  · rw [hpl] at hm
    simp only [Option.some.injEq] at hm
    rcases foldl_min_mem x xs with h | h
    · rw [← hm, h]; exact List.mem_cons_self x xs
    · rw [← hm]; exact List.mem_cons_of_mem x h

theorem adj_minLen?_isSome (G : Graph) (u v : Node) (h : Adj G u v) :
    ∃ m, minLen? G u v = some m := by
  unfold Adj at h
  unfold minLen?
  rcases hpl : parallelLengths G u v with _ | ⟨x, xs⟩
  · exact absurd hpl h
  · exact ⟨xs.foldl min x, rfl⟩

theorem parallelLengths_mem_edges (G : Graph) (u v : Node) (y : ℤ)
    (hy : y ∈ parallelLengths G u v) : ∃ e ∈ G.edges, e.src = u ∧ e.dst = v ∧ e.length = y := by
  unfold parallelLengths at hy
  rcases List.mem_map.mp hy with ⟨e, he, hlen⟩
  have hmem := List.mem_filter.mp he
  have hsd : e.src = u ∧ e.dst = v := by
    have := hmem.2
    simp only [Bool.and_eq_true, beq_iff_eq] at this
    exact this
  exact ⟨e, hmem.1, hsd.1, hsd.2, hlen⟩

theorem wmin_nonneg (G : Graph) (hnn : NonnegEdges G) (u v : Node) : 0 ≤ wmin G u v := by
  unfold wmin
  rcases hm : minLen? G u v with _ | m
  · simp
  · simp only [Option.getD_some]
    have hmem := minLen?_mem G u v m hm
    rcases parallelLengths_mem_edges G u v m hmem with ⟨e, he, _, _, hlen⟩
    rw [← hlen]; exact hnn e he

theorem adj_wmin_le (G : Graph) (u v : Node) (h : Adj G u v) :
    ∀ y ∈ parallelLengths G u v, wmin G u v ≤ y := by
  rcases adj_minLen?_isSome G u v h with ⟨m, hm⟩
  unfold wmin
  rw [hm]
  simpa using minLen?_le G u v m hm

theorem adj_dst_mem_nodes (G : Graph) (hWf : Wf G) (u v : Node) (h : Adj G u v) :
    v ∈ G.nodes := by
  unfold Adj at h
  rcases hpl : parallelLengths G u v with _ | ⟨x, xs⟩
  · exact absurd hpl h
  · have hx : x ∈ parallelLengths G u v := by rw [hpl]; exact List.mem_cons_self x xs
    rcases parallelLengths_mem_edges G u v x hx with ⟨e, he, _, hdst, _⟩
    rw [← hdst]; exact (hWf e he).2

theorem edge0Len_ge_wmin (G : Graph) (u v : Node) (h : Adj G u v) :
    wmin G u v ≤ edge0Len G u v := by
  unfold Adj at h
  unfold edge0Len
  rcases hpl : parallelLengths G u v with _ | ⟨x, xs⟩
  · exact absurd hpl h
  · simp only [List.head?_cons, Option.getD_some]
    have hx : x ∈ parallelLengths G u v := by rw [hpl]; exact List.mem_cons_self x xs
    exact adj_wmin_le G u v h x hx

end BasicLemmas

section WalkLemmas

@[simp] theorem walkWeight_nil (G : Graph) : walkWeight G [] = 0 := rfl

@[simp] theorem walkWeight_single (G : Graph) (x : Node) : walkWeight G [x] = 0 := rfl

theorem walkWeight_cons_cons (G : Graph) (u v : Node) (rest : List Node) :
    walkWeight G (u :: v :: rest) = wmin G u v + walkWeight G (v :: rest) := rfl

@[simp] theorem edge0Weight_nil (G : Graph) : edge0Weight G [] = 0 := rfl

@[simp] theorem edge0Weight_single (G : Graph) (x : Node) : edge0Weight G [x] = 0 := rfl

theorem edge0Weight_cons_cons (G : Graph) (u v : Node) (rest : List Node) :
    edge0Weight G (u :: v :: rest) = edge0Len G u v + edge0Weight G (v :: rest) := rfl

theorem isWalkFrom_single (G : Graph) (s : Node) : IsWalkFrom G s s [s] := by
  refine ⟨rfl, rfl, ?_⟩
  simp

theorem walk_ne_nil (G : Graph) (s t : Node) (p : List Node) (h : IsWalkFrom G s t p) :
    p ≠ [] := by
  rcases h with ⟨h1, _, _⟩
  intro hp
  rw [hp] at h1
  simp at h1

theorem walk_single_inv (G : Graph) (s t x : Node) (h : IsWalkFrom G s t [x]) :
    x = s ∧ x = t := by
  rcases h with ⟨h1, h2, _⟩
  simp only [List.head?_cons, Option.some.injEq] at h1
  simp only [List.getLast?_singleton, Option.some.injEq] at h2
  exact ⟨h1, h2⟩

theorem walk_cons_inv (G : Graph) (s t x y : Node) (rest : List Node)
    (h : IsWalkFrom G s t (x :: y :: rest)) :
    x = s ∧ Adj G x y ∧ IsWalkFrom G y t (y :: rest) := by
  rcases h with ⟨h1, h2, h3⟩
  simp only [List.head?_cons, Option.some.injEq] at h1
  rw [List.getLast?_cons_cons] at h2
  rw [List.chain'_cons] at h3
  exact ⟨h1, h3.1, rfl, h2, h3.2⟩

theorem walk_head_eq (G : Graph) (s t : Node) (p : List Node) (h : IsWalkFrom G s t p) :
    p.head? = some s := h.1

theorem walk_last_eq (G : Graph) (s t : Node) (p : List Node) (h : IsWalkFrom G s t p) :
    p.getLast? = some t := h.2.1

theorem walk_snoc (G : Graph) (s u v : Node) (p : List Node)
    (h : IsWalkFrom G s u p) (hadj : Adj G u v) : IsWalkFrom G s v (p ++ [v]) := by
  rcases h with ⟨h1, h2, h3⟩
  refine ⟨?_, ?_, ?_⟩
  · rcases p with _ | ⟨x, xs⟩
    · simp at h1
    · simpa using h1
  · exact List.getLast?_concat p
  · rw [List.chain'_append]
    refine ⟨h3, List.chain'_singleton v, ?_⟩
    intro x hx y hy
    simp only [List.head?_cons, Option.mem_def, Option.some.injEq] at hy
    rw [Option.mem_def, h2, Option.some.injEq] at hx
    rw [← hy, ← hx]
    exact hadj

theorem walkWeight_snoc (G : Graph) (u v : Node) :
    ∀ p : List Node, p.getLast? = some u →
      walkWeight G (p ++ [v]) = walkWeight G p + wmin G u v
  | [], h => by simp at h
  | [x], h => by
    simp only [List.getLast?_singleton, Option.some.injEq] at h
    rw [h]
    simp [walkWeight_cons_cons]
  | x :: y :: rest, h => by
    rw [List.getLast?_cons_cons] at h
    have ih := walkWeight_snoc G u v (y :: rest) h
    simp only [List.cons_append] at ih ⊢
    rw [walkWeight_cons_cons, walkWeight_cons_cons]
    rw [ih]
    ring

theorem walkWeight_nonneg (G : Graph) (hnn : NonnegEdges G) :
    ∀ p : List Node, 0 ≤ walkWeight G p
  | [] => le_refl 0
  | [_] => le_refl 0
  | u :: v :: rest => by
    rw [walkWeight_cons_cons]
    have h1 := wmin_nonneg G hnn u v
    have h2 := walkWeight_nonneg G hnn (v :: rest)
    linarith

theorem walkWeight_append_cons (G : Graph) (a : Node) (ys : List Node) :
    ∀ xs : List Node,
      walkWeight G (xs ++ a :: ys) = walkWeight G (xs ++ [a]) + walkWeight G (a :: ys)
  | [] => by simp
  | [x] => by
    simp only [List.cons_append, List.nil_append]
    rw [walkWeight_cons_cons]
    simp [walkWeight_cons_cons]
  | x :: y :: rest => by
    have ih := walkWeight_append_cons G a ys (y :: rest)
    simp only [List.cons_append] at ih ⊢
    rw [walkWeight_cons_cons, walkWeight_cons_cons]
    rw [ih]
    ring

theorem getLast?_append_cons {α : Type} (a : α) (ys : List α) :
    ∀ xs : List α, (xs ++ a :: ys).getLast? = (a :: ys).getLast?
  | [] => by simp
  | x :: xs => by
    have ih := getLast?_append_cons a ys xs
    rcases xs with _ | ⟨y, xs'⟩
    · simp only [List.nil_append] at ih
      simp [List.getLast?_cons_cons]
    · simp only [List.cons_append, List.getLast?_cons_cons] at ih ⊢
      exact ih

theorem walk_split (G : Graph) (s v a : Node) (xs ys : List Node)
    (h : IsWalkFrom G s v (xs ++ a :: ys)) :
    IsWalkFrom G s a (xs ++ [a]) ∧ IsWalkFrom G a v (a :: ys) := by
  rcases h with ⟨h1, h2, h3⟩
  rw [List.chain'_append] at h3
  rcases h3 with ⟨hc1, hc2, hlink⟩
  rw [getLast?_append_cons a ys xs] at h2
  constructor
  · refine ⟨?_, List.getLast?_concat xs, ?_⟩
    · rcases xs with _ | ⟨x, xs'⟩
      · simpa using h1
      · simpa using h1
    · rw [List.chain'_append]
      refine ⟨hc1, List.chain'_singleton a, ?_⟩
      intro x hx y hy
      simp only [List.head?_cons, Option.mem_def, Option.some.injEq] at hy
      rw [← hy]
      exact hlink x hx a rfl
  · exact ⟨rfl, h2, hc2⟩

theorem walk_glue (G : Graph) (s v a : Node) (xs ys : List Node)
    (h1 : IsWalkFrom G s a (xs ++ [a])) (h2 : IsWalkFrom G a v (a :: ys)) :
    IsWalkFrom G s v (xs ++ a :: ys) := by
  rcases h1 with ⟨h11, _, h13⟩
  rcases h2 with ⟨_, h22, h23⟩
  rw [List.chain'_append] at h13
  rcases h13 with ⟨hc1, _, hlink⟩
  refine ⟨?_, ?_, ?_⟩
  · rcases xs with _ | ⟨x, xs'⟩
    · simpa using h11
    · simpa using h11
  · rw [getLast?_append_cons a ys xs]
    exact h22
  · rw [List.chain'_append]
    refine ⟨hc1, h23, ?_⟩
    intro x hx y hy
    simp only [List.head?_cons, Option.mem_def, Option.some.injEq] at hy
    rw [← hy]
    exact hlink x hx a rfl

theorem walk_mem_nodes (G : Graph) (hWf : Wf G) :
    ∀ (p : List Node) (s t : Node), s ∈ G.nodes → IsWalkFrom G s t p →
      ∀ x ∈ p, x ∈ G.nodes
  | [], s, t, _, hw => by
    have := walk_ne_nil G s t [] hw
    simp at this
  | [y], s, t, hs, hw => by
    intro x hx
    rcases walk_single_inv G s t y hw with ⟨rfl, _⟩
    simp only [List.mem_singleton] at hx
    rw [hx]; exact hs
  | y :: z :: rest, s, t, hs, hw => by
    rcases walk_cons_inv G s t y z rest hw with ⟨rfl, hadj, hw'⟩
    have hz : z ∈ G.nodes := adj_dst_mem_nodes G hWf y z hadj
    intro x hx
    rcases List.mem_cons.mp hx with h | h
    · rw [h]; exact hs
    · exact walk_mem_nodes G hWf (z :: rest) z t hz hw' x h

theorem not_nodup_split {α : Type} [DecidableEq α] :
    ∀ l : List α, ¬ l.Nodup → ∃ (l₁ : List α) (a : α) (l₂ l₃ : List α),
      l = l₁ ++ a :: (l₂ ++ a :: l₃)
  | [], h => absurd List.nodup_nil h
  | x :: xs, h => by
    by_cases hx : x ∈ xs
    · rcases List.append_of_mem hx with ⟨s, t, hst⟩
      exact ⟨[], x, s, t, by rw [hst]; rfl⟩
    · have hxs : ¬ xs.Nodup := fun hnd => h (List.nodup_cons.mpr ⟨hx, hnd⟩)
      rcases not_nodup_split xs hxs with ⟨l₁, a, l₂, l₃, hl⟩
      exact ⟨x :: l₁, a, l₂, l₃, by rw [hl]; rfl⟩

theorem cycElim (G : Graph) (s : Node)
    (hnc : ∀ x q, Reach G s x → IsWalkFrom G x x q → 0 ≤ walkWeight G q) :
    ∀ (n : Nat) (P : List Node) (v : Node), P.length ≤ n → IsWalkFrom G s v P →
      ∃ Q, IsWalkFrom G s v Q ∧ Q.Nodup ∧ walkWeight G Q ≤ walkWeight G P ∧
        Q.length ≤ P.length := by
  intro n
  induction n with
  | zero =>
    intro P v hlen hw
    have := walk_ne_nil G s v P hw
    rcases P with _ | ⟨x, xs⟩
    · exact absurd rfl this
    · simp at hlen
  | succ n ih =>
    intro P v hlen hw
    by_cases hnd : P.Nodup
    · exact ⟨P, hw, hnd, le_refl _, le_refl _⟩
    · rcases not_nodup_split P hnd with ⟨l₁, a, l₂, l₃, rfl⟩
      have hsplit1 := walk_split G s v a l₁ (l₂ ++ a :: l₃) hw
      have hsplit2 := walk_split G a v a (a :: l₂) l₃ (by
        simpa using hsplit1.2)
      have hreach_a : Reach G s a := ⟨l₁ ++ [a], hsplit1.1⟩
      have hcycle : 0 ≤ walkWeight G ((a :: l₂) ++ [a]) :=
        hnc a ((a :: l₂) ++ [a]) hreach_a hsplit2.1
      have hglue : IsWalkFrom G s v (l₁ ++ a :: l₃) :=
        walk_glue G s v a l₁ l₃ hsplit1.1 hsplit2.2
      have hwq : walkWeight G (l₁ ++ a :: (l₂ ++ a :: l₃)) ≥
          walkWeight G (l₁ ++ a :: l₃) := by
        have e1 : walkWeight G (l₁ ++ a :: (l₂ ++ a :: l₃)) =
            walkWeight G (l₁ ++ [a]) + walkWeight G (a :: (l₂ ++ a :: l₃)) :=
          walkWeight_append_cons G a (l₂ ++ a :: l₃) l₁
        have e2 : walkWeight G (a :: (l₂ ++ a :: l₃)) =
            walkWeight G ((a :: l₂) ++ [a]) + walkWeight G (a :: l₃) := by
          have := walkWeight_append_cons G a l₃ (a :: l₂)
          simpa using this
        have e3 : walkWeight G (l₁ ++ a :: l₃) =
            walkWeight G (l₁ ++ [a]) + walkWeight G (a :: l₃) :=
          walkWeight_append_cons G a l₃ l₁
        rw [e1, e2, e3]
        linarith
      have hlen2 : (l₁ ++ a :: l₃).length ≤ n := by
        simp only [List.length_append, List.length_cons] at hlen ⊢
        omega
      rcases ih (l₁ ++ a :: l₃) v hlen2 hglue with ⟨Q, hQw, hQnd, hQwt, hQlen⟩
      refine ⟨Q, hQw, hQnd, le_trans hQwt hwq, ?_⟩
      have : (l₁ ++ a :: l₃).length ≤ (l₁ ++ a :: (l₂ ++ a :: l₃)).length := by
        simp only [List.length_append, List.length_cons]
        omega
      exact le_trans hQlen this

theorem edge0Weight_ge_walkWeight (G : Graph) :
    ∀ p : List Node, p.Chain' (Adj G) → walkWeight G p ≤ edge0Weight G p
  | [], _ => le_refl 0
  | [_], _ => le_refl 0
  | u :: v :: rest, hc => by
    rw [List.chain'_cons] at hc
    rw [walkWeight_cons_cons, edge0Weight_cons_cons]
    have h1 := edge0Len_ge_wmin G u v hc.1
    have h2 := edge0Weight_ge_walkWeight G (v :: rest) hc.2
    linarith

theorem nodup_walk_length_le (G : Graph) (hWf : Wf G) (s t : Node) (p : List Node)
    (hs : s ∈ G.nodes) (hw : IsWalkFrom G s t p) (hnd : p.Nodup) :
    p.length ≤ G.nodes.length := by
  have hsub : p ⊆ G.nodes := by
    intro x hx
    exact walk_mem_nodes G hWf p s t hs hw x hx
  exact (List.subperm_of_subset hnd hsub).length_le

end WalkLemmas

/-! ## Frontier-based weighted search (Dijkstra and A*)

Modelled from the spec: the networkx search procedures called by
`run_algorithm` are not part of the repository.  Per §4.2/§4.3, Dijkstra is
a "single-source shortest path using a priority frontier keyed by
accumulated length" that "terminates early once the target is popped", and
A* is the "same frontier-based search as Dijkstra but keyed by accumulated
length plus a heuristic estimate".  The search state maps each discovered
node to its current best accumulated length together with the
corresponding path from the source (the observable equivalent of the
spec's predecessor-chain reconstruction). -/

/-- Search state: per node, the best known (distance, path) if discovered. -/
abbrev DMap := Node → Option (ℤ × List Node)

/-- Initial state: only the source is discovered, at distance 0. -/
def initD (s : Node) : DMap := fun v => if v = s then some (0, [s]) else none

/-- Out-neighbours of `u`, each listed once. -/
def nbrs (G : Graph) (u : Node) : List Node :=
  ((G.edges.filter (fun e => e.src == u)).map (·.dst)).dedup

/-- Relax the candidate `(du + w, pu ++ [v])` into the state at key `v`. -/
def relax1 (du : ℤ) (pu : List Node) (w : ℤ) (v : Node) (D : DMap) : DMap :=
  match D v with
  | none => fun x => if x = v then some (du + w, pu ++ [v]) else D x
  | some (dv, _) =>
    if du + w < dv then fun x => if x = v then some (du + w, pu ++ [v]) else D x
    else D

/-- Relax all neighbours of `u` (with the minimum-length parallel edge as
the edge weight, as the networkx multigraph weight function does). -/
def relaxNbrs (G : Graph) (u : Node) (du : ℤ) (pu : List Node) :
    List Node → DMap → DMap
  | [], D => D
  | v :: vs, D => relaxNbrs G u du pu vs (relax1 du pu (wmin G u v) v D)

/-- Choose between the previous best frontier entry and a new candidate,
keyed by distance plus heuristic; the earlier entry wins ties. -/
def pickBetter (h : Node → ℤ) (v : Node) (dv : ℤ) (pv : List Node) :
    Option (Node × ℤ × List Node) → Option (Node × ℤ × List Node)
  | none => some (v, dv, pv)
  | some (u, du, pu) =>
    if dv + h v ≤ du + h u then some (v, dv, pv) else some (u, du, pu)

/-- Scan the node list for the unvisited discovered node minimising
distance plus heuristic (the pop of the priority frontier). -/
def pickMin (h : Node → ℤ) (D : DMap) (S : List Node) :
    List Node → Option (Node × ℤ × List Node)
  | [] => none
  | v :: rest =>
    if v ∈ S then pickMin h D S rest
    else
      match D v with
      | none => pickMin h D S rest
      | some (dv, pv) => pickBetter h v dv pv (pickMin h D S rest)

/-- The frontier loop: pop the minimal frontier node; stop when the target
is popped or the frontier is exhausted; otherwise relax its out-edges and
continue.  Fuel bounds the number of pops. -/
def dloop (G : Graph) (h : Node → ℤ) (t : Node) :
    Nat → DMap → List Node → Option (ℤ × List Node)
  | 0, _, _ => none
  | fuel + 1, D, S =>
    match pickMin h D S G.nodes with
    | none => none
    | some (u, du, pu) =>
      if u = t then some (du, pu)
      else dloop G h t fuel (relaxNbrs G u du pu (nbrs G u) D) (u :: S)

/-- The failure modes of the modelled networkx calls. -/
inductive NxError where
  | noPath
  | negativeCycle
  | nodeNotFound
deriving DecidableEq, Repr

/-- Run the frontier search with heuristic `h` from `s` to `t`:
missing endpoints fail fast, a source equal to the target yields the
trivial path, otherwise the loop decides between a path and no-path. -/
def weightedSearch (G : Graph) (h : Node → ℤ) (s t : Node) :
    Except NxError (List Node) :=
  if s ∈ G.nodes ∧ t ∈ G.nodes then
    if s = t then .ok [s]
    else
      match dloop G h t (G.nodes.length + 1) (initD s) [] with
      | some (_, p) => .ok p
      | none => .error .noPath
  else .error .nodeNotFound

/-- The all-zero heuristic. -/
def zeroHeuristic : Node → ℤ := fun _ => 0

/-- Modelled from the spec: `nx.dijkstra_path` / `nx.shortest_path` with
`method="dijkstra"` — the frontier search keyed by accumulated length. -/
def nx_dijkstra_path (G : Graph) (s t : Node) : Except NxError (List Node) :=
  weightedSearch G zeroHeuristic s t

/-- The heuristic an `nx.astar_path` call actually runs with: the one
passed by the caller, or the zero heuristic when none is supplied. -/
def effective_astar_heuristic (h? : Option (Node → ℤ)) : Node → ℤ :=
  h?.getD zeroHeuristic

/-- Modelled from the spec: `nx.astar_path` — the same frontier search
keyed by accumulated length plus the (optional) heuristic. -/
def nx_astar_path (G : Graph) (h? : Option (Node → ℤ)) (s t : Node) :
    Except NxError (List Node) :=
  weightedSearch G (effective_astar_heuristic h?) s t

section SearchLemmas

theorem mem_nbrs_iff (G : Graph) (u x : Node) : x ∈ nbrs G u ↔ Adj G u x := by
  unfold nbrs Adj parallelLengths
  rw [List.mem_dedup, List.mem_map]
  constructor
  · rintro ⟨e, he, rfl⟩
    have hmem := List.mem_filter.mp he
    intro hnil
    rw [List.map_eq_nil_iff, List.filter_eq_nil_iff] at hnil
    refine hnil e hmem.1 ?_
    simp only [Bool.and_eq_true, beq_iff_eq]
    have := hmem.2
    simp only [beq_iff_eq] at this
    exact ⟨this, trivial⟩
  · intro hne
    rw [Ne, List.map_eq_nil_iff, ← Ne] at hne
    rcases List.exists_mem_of_ne_nil _ hne with ⟨e, he⟩
    have hmem := List.mem_filter.mp he
    have hsd : e.src = u ∧ e.dst = x := by
      have := hmem.2
      simp only [Bool.and_eq_true, beq_iff_eq] at this
      exact this
    refine ⟨e, List.mem_filter.mpr ⟨hmem.1, ?_⟩, hsd.2⟩
    simp only [beq_iff_eq]
    exact hsd.1

theorem pickMin_mem (h : Node → ℤ) (D : DMap) (S : List Node) :
    ∀ (l : List Node) (u : Node) (du : ℤ) (pu : List Node),
      pickMin h D S l = some (u, du, pu) → u ∈ l ∧ u ∉ S ∧ D u = some (du, pu)
  | [], u, du, pu => by intro hp; simp [pickMin] at hp
  | v :: rest, u, du, pu => by
    intro hp
    unfold pickMin at hp
    by_cases hv : v ∈ S
    · rw [if_pos hv] at hp
      rcases pickMin_mem h D S rest u du pu hp with ⟨h1, h2, h3⟩
      exact ⟨List.mem_cons_of_mem v h1, h2, h3⟩
    · rw [if_neg hv] at hp
      rcases hDv : D v with _ | ⟨dv, pv⟩
      · rw [hDv] at hp
        rcases pickMin_mem h D S rest u du pu hp with ⟨h1, h2, h3⟩
        exact ⟨List.mem_cons_of_mem v h1, h2, h3⟩
      · rw [hDv] at hp
        rcases hr : pickMin h D S rest with _ | ⟨⟨w, dw, pw⟩⟩
        · rw [hr] at hp
          simp only [pickBetter] at hp
          simp only [Option.some.injEq, Prod.mk.injEq] at hp
          rcases hp with ⟨rfl, rfl, rfl⟩
          exact ⟨List.mem_cons_self v rest, hv, hDv⟩
        · rw [hr] at hp
          simp only [pickBetter] at hp
          by_cases hle : dv + h v ≤ dw + h w
          · rw [if_pos hle] at hp
            simp only [Option.some.injEq, Prod.mk.injEq] at hp
            rcases hp with ⟨rfl, rfl, rfl⟩
            exact ⟨List.mem_cons_self v rest, hv, hDv⟩
          · rw [if_neg hle] at hp
            simp only [Option.some.injEq, Prod.mk.injEq] at hp
            rcases hp with ⟨rfl, rfl, rfl⟩
            rcases pickMin_mem h D S rest w dw pw hr with ⟨h1, h2, h3⟩
            exact ⟨List.mem_cons_of_mem v h1, h2, h3⟩

theorem pickMin_none (h : Node → ℤ) (D : DMap) (S : List Node) :
    ∀ l : List Node, pickMin h D S l = none →
      ∀ v ∈ l, v ∉ S → D v = none
  | [], _ => by intro v hv; simp at hv
  | v :: rest, hp => by
    unfold pickMin at hp
    by_cases hv : v ∈ S
    · rw [if_pos hv] at hp
      intro x hx hxS
      rcases List.mem_cons.mp hx with rfl | hx'
      · exact absurd hv hxS
      · exact pickMin_none h D S rest hp x hx' hxS
    · rw [if_neg hv] at hp
      rcases hDv : D v with _ | ⟨dv, pv⟩
      · rw [hDv] at hp
        intro x hx hxS
        rcases List.mem_cons.mp hx with rfl | hx'
        · exact hDv
        · exact pickMin_none h D S rest hp x hx' hxS
      · rw [hDv] at hp
        rcases hr : pickMin h D S rest with _ | ⟨⟨w, dw, pw⟩⟩ <;>
          rw [hr] at hp <;> simp only [pickBetter] at hp
        · simp at hp
        · by_cases hle : dv + h v ≤ dw + h w
          · rw [if_pos hle] at hp; simp at hp
          · rw [if_neg hle] at hp; simp at hp

theorem pickMin_min (h : Node → ℤ) (D : DMap) (S : List Node) :
    ∀ (l : List Node) (u : Node) (du : ℤ) (pu : List Node),
      pickMin h D S l = some (u, du, pu) →
      ∀ v ∈ l, v ∉ S → ∀ dv pv, D v = some (dv, pv) → du + h u ≤ dv + h v
  | [], u, du, pu => by intro hp; simp [pickMin] at hp
  | v :: rest, u, du, pu => by
    intro hp x hx hxS dx px hDx
    unfold pickMin at hp
    by_cases hv : v ∈ S
    · rw [if_pos hv] at hp
      rcases List.mem_cons.mp hx with rfl | hx'
      · exact absurd hv hxS
      · exact pickMin_min h D S rest u du pu hp x hx' hxS dx px hDx
    · rw [if_neg hv] at hp
      rcases hDv : D v with _ | ⟨dv, pv⟩
      · rw [hDv] at hp
        rcases List.mem_cons.mp hx with rfl | hx'
        · rw [hDv] at hDx; exact absurd hDx (by simp)
        · exact pickMin_min h D S rest u du pu hp x hx' hxS dx px hDx
      · rw [hDv] at hp
        rcases hr : pickMin h D S rest with _ | ⟨⟨w, dw, pw⟩⟩
        · rw [hr] at hp
          simp only [pickBetter] at hp
          simp only [Option.some.injEq, Prod.mk.injEq] at hp
          rcases hp with ⟨rfl, rfl, rfl⟩
          rcases List.mem_cons.mp hx with rfl | hx'
          · rw [hDv] at hDx
            simp only [Option.some.injEq, Prod.mk.injEq] at hDx
            linarith [hDx.1]
          · have := pickMin_none h D S rest hr x hx' hxS
            rw [this] at hDx; exact absurd hDx (by simp)
        · rw [hr] at hp
          simp only [pickBetter] at hp
          by_cases hle : dv + h v ≤ dw + h w
          · rw [if_pos hle] at hp
            simp only [Option.some.injEq, Prod.mk.injEq] at hp
            rcases hp with ⟨rfl, rfl, rfl⟩
            rcases List.mem_cons.mp hx with rfl | hx'
            · rw [hDv] at hDx
              simp only [Option.some.injEq, Prod.mk.injEq] at hDx
              linarith [hDx.1]
            · have hw := pickMin_min h D S rest w dw pw hr x hx' hxS dx px hDx
              exact le_trans hle hw
          · rw [if_neg hle] at hp
            simp only [Option.some.injEq, Prod.mk.injEq] at hp
            rcases hp with ⟨rfl, rfl, rfl⟩
            rcases List.mem_cons.mp hx with rfl | hx'
            · rw [hDv] at hDx
              simp only [Option.some.injEq, Prod.mk.injEq] at hDx
              linarith [hDx.1, lt_of_not_le hle]
            · exact pickMin_min h D S rest w dw pw hr x hx' hxS dx px hDx

theorem pickMin_init (h : Node → ℤ) (s : Node) (l : List Node) (hs : s ∈ l) :
    pickMin h (initD s) [] l = some (s, 0, [s]) := by
  rcases hr : pickMin h (initD s) [] l with _ | ⟨⟨u, du, pu⟩⟩
  · have := pickMin_none h (initD s) [] l hr s hs (by simp)
    unfold initD at this
    simp at this
  · rcases pickMin_mem h (initD s) [] l u du pu hr with ⟨_, _, hDu⟩
    unfold initD at hDu
    by_cases hu : u = s
    · rw [if_pos hu] at hDu
      simp only [Option.some.injEq, Prod.mk.injEq] at hDu
      rw [hu, hDu.1, hDu.2]
    · rw [if_neg hu] at hDu
      exact absurd hDu (by simp)

theorem relax1_ne (du : ℤ) (pu : List Node) (w : ℤ) (v : Node) (D : DMap) (x : Node)
    (hx : x ≠ v) : relax1 du pu w v D x = D x := by
  unfold relax1
  rcases D v with _ | ⟨dv, pv⟩
  · simp [hx]
  · by_cases hlt : du + w < dv
    · simp [hlt, hx]
    · simp [hlt]

theorem relax1_at (du : ℤ) (pu : List Node) (w : ℤ) (v : Node) (D : DMap) :
    (D v = none ∧ relax1 du pu w v D v = some (du + w, pu ++ [v]))
    ∨ (∃ dv pv, D v = some (dv, pv) ∧ du + w < dv ∧
        relax1 du pu w v D v = some (du + w, pu ++ [v]))
    ∨ (∃ dv pv, D v = some (dv, pv) ∧ dv ≤ du + w ∧ relax1 du pu w v D = D) := by
  unfold relax1
  rcases hDv : D v with _ | ⟨dv, pv⟩
  · left; exact ⟨rfl, by simp⟩
  · by_cases hlt : du + w < dv
    · right; left
      exact ⟨dv, pv, rfl, hlt, by simp [hlt]⟩
    · right; right
      exact ⟨dv, pv, rfl, le_of_not_lt hlt, by simp [hlt]⟩

theorem relax1_le_old (du : ℤ) (pu : List Node) (w : ℤ) (v : Node) (D : DMap)
    (x : Node) (dx : ℤ) (px : List Node) (hDx : D x = some (dx, px)) :
    ∃ d p, relax1 du pu w v D x = some (d, p) ∧ d ≤ dx := by
  by_cases hx : x = v
  · subst hx
    rcases relax1_at du pu w x D with ⟨h1, h2⟩ | ⟨dv, pv, h1, h2, h3⟩ | ⟨dv, pv, h1, h2, h3⟩
    · rw [h1] at hDx; exact absurd hDx (by simp)
    · rw [h1] at hDx
      simp only [Option.some.injEq, Prod.mk.injEq] at hDx
      exact ⟨du + w, pu ++ [x], h3, by rw [← hDx.1]; exact le_of_lt h2⟩
    · rw [h3]; exact ⟨dx, px, hDx, le_refl dx⟩
  · rw [relax1_ne du pu w v D x hx]
    exact ⟨dx, px, hDx, le_refl dx⟩

theorem relax1_le_cand (du : ℤ) (pu : List Node) (w : ℤ) (v : Node) (D : DMap) :
    ∃ d p, relax1 du pu w v D v = some (d, p) ∧ d ≤ du + w := by
  rcases relax1_at du pu w v D with ⟨h1, h2⟩ | ⟨dv, pv, h1, h2, h3⟩ | ⟨dv, pv, h1, h2, h3⟩
  · exact ⟨du + w, pu ++ [v], h2, le_refl _⟩
  · exact ⟨du + w, pu ++ [v], h3, le_refl _⟩
  · rw [h3]; exact ⟨dv, pv, h1, h2⟩

theorem relaxNbrs_not_mem (G : Graph) (u : Node) (du : ℤ) (pu : List Node) :
    ∀ (vs : List Node) (D : DMap) (x : Node), x ∉ vs →
      relaxNbrs G u du pu vs D x = D x
  | [], D, x, _ => rfl
  | v :: vs, D, x, hx => by
    have hxv : x ≠ v := fun hc => hx (hc ▸ List.mem_cons_self v vs)
    have hxvs : x ∉ vs := fun hc => hx (List.mem_cons_of_mem v hc)
    unfold relaxNbrs
    rw [relaxNbrs_not_mem G u du pu vs _ x hxvs]
    exact relax1_ne du pu (wmin G u v) v D x hxv

theorem relaxNbrs_le_old (G : Graph) (u : Node) (du : ℤ) (pu : List Node) :
    ∀ (vs : List Node) (D : DMap) (x : Node) (dx : ℤ) (px : List Node),
      D x = some (dx, px) →
      ∃ d p, relaxNbrs G u du pu vs D x = some (d, p) ∧ d ≤ dx
  | [], D, x, dx, px, hDx => ⟨dx, px, hDx, le_refl dx⟩
  | v :: vs, D, x, dx, px, hDx => by
    rcases relax1_le_old du pu (wmin G u v) v D x dx px hDx with ⟨d1, p1, hd1, hle1⟩
    rcases relaxNbrs_le_old G u du pu vs _ x d1 p1 hd1 with ⟨d2, p2, hd2, hle2⟩
    exact ⟨d2, p2, hd2, le_trans hle2 hle1⟩

theorem relaxNbrs_le_cand (G : Graph) (u : Node) (du : ℤ) (pu : List Node) :
    ∀ (vs : List Node) (D : DMap) (v : Node), v ∈ vs →
      ∃ d p, relaxNbrs G u du pu vs D v = some (d, p) ∧ d ≤ du + wmin G u v
  | [], D, v, hv => absurd hv (by simp)
  | w :: vs, D, v, hv => by
    unfold relaxNbrs
    by_cases hvw : v = w
    · subst hvw
      rcases relax1_le_cand du pu (wmin G u v) v D with ⟨d1, p1, hd1, hle1⟩
      rcases relaxNbrs_le_old G u du pu vs _ v d1 p1 hd1 with ⟨d2, p2, hd2, hle2⟩
      exact ⟨d2, p2, hd2, le_trans hle2 hle1⟩
    · have hv' : v ∈ vs := by
        rcases List.mem_cons.mp hv with h | h
        · exact absurd h hvw
        · exact h
      exact relaxNbrs_le_cand G u du pu vs _ v hv'

theorem relaxNbrs_charac (G : Graph) (u : Node) (du : ℤ) (pu : List Node) :
    ∀ (vs : List Node) (D : DMap) (x : Node) (d : ℤ) (p : List Node),
      relaxNbrs G u du pu vs D x = some (d, p) →
      D x = some (d, p) ∨ (x ∈ vs ∧ d = du + wmin G u x ∧ p = pu ++ [x])
  | [], D, x, d, p, hx => Or.inl hx
  | v :: vs, D, x, d, p, hx => by
    unfold relaxNbrs at hx
    rcases relaxNbrs_charac G u du pu vs _ x d p hx with h | ⟨hmem, hd, hp⟩
    · by_cases hxv : x = v
      · subst hxv
        rcases relax1_at du pu (wmin G u x) x D with
          ⟨h1, h2⟩ | ⟨dv, pv, h1, h2, h3⟩ | ⟨dv, pv, h1, h2, h3⟩
        · rw [h2] at h
          simp only [Option.some.injEq, Prod.mk.injEq] at h
          exact Or.inr ⟨List.mem_cons_self x vs, h.1.symm, h.2.symm⟩
        · rw [h3] at h
          simp only [Option.some.injEq, Prod.mk.injEq] at h
          exact Or.inr ⟨List.mem_cons_self x vs, h.1.symm, h.2.symm⟩
        · rw [h3] at h
          exact Or.inl h
      · rw [relax1_ne du pu (wmin G u v) v D x hxv] at h
        exact Or.inl h
    · exact Or.inr ⟨List.mem_cons_of_mem v hmem, hd, hp⟩

theorem relaxNbrs_no_improve (G : Graph) (u : Node) (du : ℤ) (pu : List Node) :
    ∀ (vs : List Node) (D : DMap) (x : Node) (dx : ℤ) (px : List Node),
      D x = some (dx, px) → dx ≤ du + wmin G u x →
      relaxNbrs G u du pu vs D x = D x
  | [], D, x, dx, px, _, _ => rfl
  | v :: vs, D, x, dx, px, hDx, hle => by
    unfold relaxNbrs
    by_cases hxv : x = v
    · subst hxv
      rcases relax1_at du pu (wmin G u x) x D with
        ⟨h1, h2⟩ | ⟨dv, pv, h1, h2, h3⟩ | ⟨dv, pv, h1, h2, h3⟩
      · rw [h1] at hDx; exact absurd hDx (by simp)
      · rw [h1] at hDx
        simp only [Option.some.injEq, Prod.mk.injEq] at hDx
        rw [hDx.1] at h2
        exact absurd hle (not_le_of_lt h2)
      · rw [h3]
        exact relaxNbrs_no_improve G u du pu vs D x dx px hDx hle
    · have heq : relax1 du pu (wmin G u v) v D x = D x :=
        relax1_ne du pu (wmin G u v) v D x hxv
      rw [relaxNbrs_no_improve G u du pu vs _ x dx px (by rw [heq]; exact hDx) hle]
      exact heq

end SearchLemmas

section DijkstraInvariant

/-- The loop invariant of the frontier search (with the zero heuristic):
every stored entry is a genuine walk from `s` with matching weight, nodes
of entries are graph nodes, popped nodes carry optimal distances, the
frontier dominates the popped boundary, and bookkeeping facts about the
popped list `S`. -/
structure DInv (G : Graph) (s t : Node) (D : DMap) (S : List Node) : Prop where
  conserve : ∀ v d p, D v = some (d, p) → IsWalkFrom G s v p ∧ walkWeight G p = d
  domD : ∀ v d p, D v = some (d, p) → v ∈ G.nodes
  optS : ∀ u ∈ S, ∃ d p, D u = some (d, p) ∧
    ∀ q, IsWalkFrom G s u q → d ≤ walkWeight G q
  boundary : ∀ x ∈ S, ∀ y, Adj G x y → ∃ dx px dy py, D x = some (dx, px) ∧
    D y = some (dy, py) ∧ dy ≤ dx + wmin G x y
  nodupS : S.Nodup
  subS : ∀ u ∈ S, u ∈ G.nodes
  tS : t ∉ S
  startS : (S = [] ∧ D = initD s) ∨ s ∈ S

theorem initD_inv (s : Node) (v : Node) (d : ℤ) (p : List Node)
    (hv : initD s v = some (d, p)) : v = s ∧ d = 0 ∧ p = [s] := by
  unfold initD at hv
  by_cases hvs : v = s
  · rw [if_pos hvs] at hv
    simp only [Option.some.injEq, Prod.mk.injEq] at hv
    exact ⟨hvs, hv.1.symm, hv.2.symm⟩
  · rw [if_neg hvs] at hv
    exact absurd hv (by simp)

theorem dinv_init (G : Graph) (s t : Node) (hs : s ∈ G.nodes) (hst : s ≠ t) :
    DInv G s t (initD s) [] where
  conserve := by
    intro v d p hv
    rcases initD_inv s v d p hv with ⟨rfl, rfl, rfl⟩
    exact ⟨isWalkFrom_single G v, rfl⟩
  domD := by
    intro v d p hv
    rcases initD_inv s v d p hv with ⟨rfl, _, _⟩
    exact hs
  optS := by intro u hu; simp at hu
  boundary := by intro x hx; simp at hx
  nodupS := List.nodup_nil
  subS := by intro u hu; simp at hu
  tS := by simp
  startS := Or.inl ⟨rfl, rfl⟩

theorem dinv_ds_zero (G : Graph) (s t : Node) (D : DMap) (S : List Node)
    (hnn : NonnegEdges G) (inv : DInv G s t D S) (hsS : s ∈ S) :
    ∃ p, D s = some (0, p) := by
  rcases inv.optS s hsS with ⟨d, p, hD, hopt⟩
  have h1 : d ≤ 0 := by
    have := hopt [s] (isWalkFrom_single G s)
    simpa using this
  have h2 : 0 ≤ d := by
    rcases inv.conserve s d p hD with ⟨hw, hwe⟩
    rw [← hwe]
    exact walkWeight_nonneg G hnn p
  have : d = 0 := le_antisymm h1 h2
  rw [this] at hD
  exact ⟨p, hD⟩

theorem crossing (G : Graph) (s t : Node) (hnn : NonnegEdges G) (D : DMap)
    (S : List Node) (inv : DInv G s t D S) (m : ℤ)
    (hm : ∀ y dy py, y ∉ S → D y = some (dy, py) → m ≤ dy) :
    ∀ (P : List Node) (x u : Node), IsWalkFrom G x u P → x ∈ S → u ∉ S →
      ∀ dx px, D x = some (dx, px) → m ≤ dx + walkWeight G P
  | [], x, u, hw, _, _ => by
    have := walk_ne_nil G x u [] hw
    intro dx px _
    exact absurd rfl this
  | [z], x, u, hw, hxS, huS => by
    intro dx px _
    rcases walk_single_inv G x u z hw with ⟨rfl, rfl⟩
    exact absurd hxS huS
  | z :: y :: rest, x, u, hw, hxS, huS => by
    intro dx px hDx
    rcases walk_cons_inv G x u z y rest hw with ⟨rfl, hadj, hw'⟩
    rcases inv.boundary z hxS y hadj with ⟨dx', px', dy, py, hDx', hDy, hdy⟩
    rw [hDx] at hDx'
    simp only [Option.some.injEq, Prod.mk.injEq] at hDx'
    rw [← hDx'.1] at hdy
    rw [walkWeight_cons_cons]
    by_cases hyS : y ∈ S
    · have := crossing G s t hnn D S inv m hm (y :: rest) y u hw' hyS huS dy py hDy
      linarith
    · have hmy := hm y dy py hyS hDy
      have hnnw := walkWeight_nonneg G hnn (y :: rest)
      linarith

theorem pop_optimal (G : Graph) (s t : Node) (hWf : Wf G) (hnn : NonnegEdges G)
    (hs : s ∈ G.nodes) (D : DMap) (S : List Node) (inv : DInv G s t D S)
    (u : Node) (du : ℤ) (pu : List Node)
    (hpick : pickMin zeroHeuristic D S G.nodes = some (u, du, pu)) :
    ∀ q, IsWalkFrom G s u q → du ≤ walkWeight G q := by
  rcases pickMin_mem zeroHeuristic D S G.nodes u du pu hpick with ⟨huN, huS, hDu⟩
  have hm : ∀ y dy py, y ∉ S → D y = some (dy, py) → du ≤ dy := by
    intro y dy py hyS hDy
    have hyN := inv.domD y dy py hDy
    have := pickMin_min zeroHeuristic D S G.nodes u du pu hpick y hyN hyS dy py hDy
    simpa [zeroHeuristic] using this
  rcases inv.startS with ⟨hS, hD⟩ | hsS
  · intro q hq
    rw [hD] at hDu
    rcases initD_inv s u du pu hDu with ⟨rfl, rfl, _⟩
    exact walkWeight_nonneg G hnn q
  · intro q hq
    rcases dinv_ds_zero G s t D S hnn inv hsS with ⟨ps, hDs⟩
    by_cases hus : u = s
    · rw [hus, hDs] at hDu
      simp only [Option.some.injEq, Prod.mk.injEq] at hDu
      rw [← hDu.1]
      exact walkWeight_nonneg G hnn q
    · have := crossing G s t hnn D S inv du hm q s u hq hsS huS 0 ps hDs
      linarith

theorem dinv_step (G : Graph) (s t : Node) (hWf : Wf G) (hnn : NonnegEdges G)
    (hs : s ∈ G.nodes) (D : DMap) (S : List Node) (inv : DInv G s t D S)
    (u : Node) (du : ℤ) (pu : List Node)
    (hpick : pickMin zeroHeuristic D S G.nodes = some (u, du, pu)) (hut : u ≠ t) :
    DInv G s t (relaxNbrs G u du pu (nbrs G u) D) (u :: S) := by
  rcases pickMin_mem zeroHeuristic D S G.nodes u du pu hpick with ⟨huN, huS, hDu⟩
  rcases inv.conserve u du pu hDu with ⟨hpu_walk, hpu_w⟩
  have hpu_last : pu.getLast? = some u := walk_last_eq G s u pu hpu_walk
  -- the relaxation does not change entries of S ∪ {u}
  have hF1 : ∀ x, x = u ∨ x ∈ S → relaxNbrs G u du pu (nbrs G u) D x = D x := by
    intro x hx
    rcases hx with rfl | hxS
    · exact relaxNbrs_no_improve G x du pu (nbrs G x) D x du pu hDu
        (by have := wmin_nonneg G hnn x x; linarith)
    · rcases inv.optS x hxS with ⟨dx, px, hDx, hopt⟩
      by_cases hadj : Adj G u x
      · have hxw : IsWalkFrom G s x (pu ++ [x]) := walk_snoc G s u x pu hpu_walk hadj
        have hxww : walkWeight G (pu ++ [x]) = du + wmin G u x := by
          rw [walkWeight_snoc G u x pu hpu_last, hpu_w]
        have hle : dx ≤ du + wmin G u x := by
          have := hopt (pu ++ [x]) hxw
          rw [hxww] at this
          exact this
        exact relaxNbrs_no_improve G u du pu (nbrs G u) D x dx px hDx hle
      · refine relaxNbrs_not_mem G u du pu (nbrs G u) D x ?_
        rw [mem_nbrs_iff]
        exact hadj
  have hopt_u : ∀ q, IsWalkFrom G s u q → du ≤ walkWeight G q :=
    pop_optimal G s t hWf hnn hs D S inv u du pu hpick
  refine ⟨?_, ?_, ?_, ?_, ?_, ?_, ?_, ?_⟩
  · -- conserve
    intro v d p hv
    rcases relaxNbrs_charac G u du pu (nbrs G u) D v d p hv with h | ⟨hmem, hd, hp⟩
    · exact inv.conserve v d p h
    · have hadj : Adj G u v := (mem_nbrs_iff G u v).mp hmem
      subst hd; subst hp
      refine ⟨walk_snoc G s u v pu hpu_walk hadj, ?_⟩
      rw [walkWeight_snoc G u v pu hpu_last, hpu_w]
  · -- domD
    intro v d p hv
    rcases relaxNbrs_charac G u du pu (nbrs G u) D v d p hv with h | ⟨hmem, _, _⟩
    · exact inv.domD v d p h
    · exact adj_dst_mem_nodes G hWf u v ((mem_nbrs_iff G u v).mp hmem)
  · -- optS
    intro x hx
    rcases List.mem_cons.mp hx with rfl | hxS
    · refine ⟨du, pu, ?_, hopt_u⟩
      rw [hF1 x (Or.inl rfl)]
      exact hDu
    · rcases inv.optS x hxS with ⟨dx, px, hDx, hopt⟩
      refine ⟨dx, px, ?_, hopt⟩
      rw [hF1 x (Or.inr hxS)]
      exact hDx
  · -- boundary
    intro x hx y hadj
    rcases List.mem_cons.mp hx with rfl | hxS
    · have hynb : y ∈ nbrs G x := (mem_nbrs_iff G x y).mpr hadj
      rcases relaxNbrs_le_cand G x du pu (nbrs G x) D y hynb with ⟨dy, py, hDy, hdy⟩
      refine ⟨du, pu, dy, py, ?_, hDy, hdy⟩
      rw [hF1 x (Or.inl rfl)]
      exact hDu
    · rcases inv.boundary x hxS y hadj with ⟨dx, px, dy, py, hDx, hDy, hdy⟩
      rcases relaxNbrs_le_old G u du pu (nbrs G u) D y dy py hDy with ⟨dy', py', hDy', hdy'⟩
      refine ⟨dx, px, dy', py', ?_, hDy', by linarith⟩
      rw [hF1 x (Or.inr hxS)]
      exact hDx
  · -- nodup
    exact List.nodup_cons.mpr ⟨huS, inv.nodupS⟩
  · -- subS
    intro x hx
    rcases List.mem_cons.mp hx with rfl | hxS
    · exact huN
    · exact inv.subS x hxS
  · -- tS
    intro hmem
    rcases List.mem_cons.mp hmem with h | h
    · exact hut h.symm
    · exact inv.tS h
  · -- startS
    rcases inv.startS with ⟨hS, hD⟩ | hsS
    · rw [hD] at hDu
      rcases initD_inv s u du pu hDu with ⟨rfl, _, _⟩
      exact Or.inr (List.mem_cons_self u S)
    · exact Or.inr (List.mem_cons_of_mem u hsS)

theorem walk_exit (G : Graph) (s t : Node) (hWf : Wf G) (D : DMap) (S : List Node)
    (inv : DInv G s t D S) :
    ∀ (P : List Node) (x u : Node), IsWalkFrom G x u P → x ∈ S → u ∉ S →
      ∃ y dy py, y ∉ S ∧ y ∈ G.nodes ∧ D y = some (dy, py)
  | [], x, u, hw, _, _ => by
    have := walk_ne_nil G x u [] hw
    exact absurd rfl this
  | [z], x, u, hw, hxS, huS => by
    rcases walk_single_inv G x u z hw with ⟨rfl, rfl⟩
    exact absurd hxS huS
  | z :: y :: rest, x, u, hw, hxS, huS => by
    rcases walk_cons_inv G x u z y rest hw with ⟨rfl, hadj, hw'⟩
    by_cases hyS : y ∈ S
    · exact walk_exit G s t hWf D S inv (y :: rest) y u hw' hyS huS
    · rcases inv.boundary z hxS y hadj with ⟨_, _, dy, py, _, hDy, _⟩
      exact ⟨y, dy, py, hyS, adj_dst_mem_nodes G hWf z y hadj, hDy⟩

theorem dloop_conserve (G : Graph) (h : Node → ℤ) (s t : Node) :
    ∀ (fuel : Nat) (D : DMap) (S : List Node),
      (∀ v d p, D v = some (d, p) → IsWalkFrom G s v p ∧ walkWeight G p = d) →
      ∀ d p, dloop G h t fuel D S = some (d, p) →
        IsWalkFrom G s t p ∧ walkWeight G p = d := by
  intro fuel
  induction fuel with
  | zero => intro D S _ d p hloop; simp [dloop] at hloop
  | succ n ih =>
    intro D S hcons d p hloop
    unfold dloop at hloop
    split at hloop
    · simp at hloop
    · rename_i tup u du pu heq
      have hpick : pickMin h D S G.nodes = some (u, du, pu) := heq
      rcases pickMin_mem h D S G.nodes u du pu hpick with ⟨_, _, hDu⟩
      by_cases hut : u = t
      · rw [if_pos hut] at hloop
        simp only [Option.some.injEq, Prod.mk.injEq] at hloop
        rcases hloop with ⟨rfl, rfl⟩
        rw [← hut]
        exact hcons u du pu hDu
      · rw [if_neg hut] at hloop
        refine ih _ _ ?_ d p hloop
        intro v dv pv hv
        rcases relaxNbrs_charac G u du pu (nbrs G u) D v dv pv hv with hv' | ⟨hmem, hd, hp⟩
        · exact hcons v dv pv hv'
        · have hadj : Adj G u v := (mem_nbrs_iff G u v).mp hmem
          rcases hcons u du pu hDu with ⟨hw, hwe⟩
          subst hd; subst hp
          refine ⟨walk_snoc G s u v pu hw hadj, ?_⟩
          rw [walkWeight_snoc G u v pu (walk_last_eq G s u pu hw), hwe]

theorem dloop_optimal (G : Graph) (s t : Node) (hWf : Wf G) (hnn : NonnegEdges G)
    (hs : s ∈ G.nodes) :
    ∀ (fuel : Nat) (D : DMap) (S : List Node), DInv G s t D S →
      ∀ d p, dloop G zeroHeuristic t fuel D S = some (d, p) →
        ∀ q, IsWalkFrom G s t q → d ≤ walkWeight G q := by
  intro fuel
  induction fuel with
  | zero => intro D S _ d p hloop; simp [dloop] at hloop
  | succ n ih =>
    intro D S inv d p hloop
    unfold dloop at hloop
    split at hloop
    · simp at hloop
    · rename_i tup u du pu heq
      have hpick : pickMin zeroHeuristic D S G.nodes = some (u, du, pu) := heq
      by_cases hut : u = t
      · rw [if_pos hut] at hloop
        simp only [Option.some.injEq, Prod.mk.injEq] at hloop
        rcases hloop with ⟨rfl, rfl⟩
        intro q hq
        have := pop_optimal G s t hWf hnn hs D S inv u du pu hpick
        rw [hut] at this
        exact this q hq
      · rw [if_neg hut] at hloop
        exact ih _ _ (dinv_step G s t hWf hnn hs D S inv u du pu hpick hut) d p hloop

theorem dloop_complete (G : Graph) (s t : Node) (hWf : Wf G) (hnn : NonnegEdges G)
    (hs : s ∈ G.nodes) :
    ∀ (fuel : Nat) (D : DMap) (S : List Node), DInv G s t D S →
      Reach G s t → G.nodes.length + 1 ≤ fuel + S.length →
      (dloop G zeroHeuristic t fuel D S).isSome := by
  intro fuel
  induction fuel with
  | zero =>
    intro D S inv _ hbound
    have hsub : S ⊆ G.nodes := by intro x hx; exact inv.subS x hx
    have := (List.subperm_of_subset inv.nodupS hsub).length_le
    omega
  | succ n ih =>
    intro D S inv hreach hbound
    unfold dloop
    split
    · rename_i heq
      exfalso
      have hpick : pickMin zeroHeuristic D S G.nodes = none := heq
      rcases inv.startS with ⟨hS, hD⟩ | hsS
      · have := pickMin_init zeroHeuristic s G.nodes hs
        rw [← hS, ← hD] at this
        rw [hpick] at this
        exact absurd this (by simp)
      · rcases hreach with ⟨q, hq⟩
        rcases walk_exit G s t hWf D S inv q s t hq hsS inv.tS with
          ⟨y, dy, py, hyS, hyN, hDy⟩
        have := pickMin_none zeroHeuristic D S G.nodes hpick y hyN hyS
        rw [this] at hDy
        exact absurd hDy (by simp)
    · rename_i tup u du pu heq
      have hpick : pickMin zeroHeuristic D S G.nodes = some (u, du, pu) := heq
      by_cases hut : u = t
      · rw [if_pos hut]; simp
      · rw [if_neg hut]
        refine ih _ _ (dinv_step G s t hWf hnn hs D S inv u du pu hpick hut)
          hreach ?_
        simp only [List.length_cons]
        omega

end DijkstraInvariant

section DijkstraWrapper

theorem initD_conserve (G : Graph) (s : Node) :
    ∀ v d p, initD s v = some (d, p) → IsWalkFrom G s v p ∧ walkWeight G p = d := by
  intro v d p hv
  rcases initD_inv s v d p hv with ⟨rfl, rfl, rfl⟩
  exact ⟨isWalkFrom_single G v, rfl⟩

theorem weightedSearch_self (G : Graph) (h : Node → ℤ) (s : Node) (hs : s ∈ G.nodes) :
    weightedSearch G h s s = .ok [s] := by
  unfold weightedSearch
  rw [if_pos ⟨hs, hs⟩, if_pos rfl]

theorem nx_dijkstra_ok (G : Graph) (s t : Node) (hWf : Wf G) (hnn : NonnegEdges G)
    (hs : s ∈ G.nodes) (ht : t ∈ G.nodes) (hr : Reach G s t) :
    ∃ p, nx_dijkstra_path G s t = .ok p ∧ IsWalkFrom G s t p ∧
      ∀ q, IsWalkFrom G s t q → walkWeight G p ≤ walkWeight G q := by
  unfold nx_dijkstra_path weightedSearch
  rw [if_pos ⟨hs, ht⟩]
  by_cases hst : s = t
  · rw [if_pos hst]
    subst hst
    refine ⟨[s], rfl, isWalkFrom_single G s, ?_⟩
    intro q hq
    simpa using walkWeight_nonneg G hnn q
  · rw [if_neg hst]
    have hinv := dinv_init G s t hs hst
    have hcomplete := dloop_complete G s t hWf hnn hs (G.nodes.length + 1)
      (initD s) [] hinv hr (by simp)
    rcases hloop : dloop G zeroHeuristic t (G.nodes.length + 1) (initD s) [] with
      _ | ⟨d, p⟩
    · rw [hloop] at hcomplete; simp at hcomplete
    · rcases dloop_conserve G zeroHeuristic s t (G.nodes.length + 1) (initD s) []
        (initD_conserve G s) d p hloop with ⟨hw, hwe⟩
      have hopt := dloop_optimal G s t hWf hnn hs (G.nodes.length + 1) (initD s) []
        hinv d p hloop
      refine ⟨p, rfl, hw, ?_⟩
      intro q hq
      rw [hwe]
      exact hopt q hq

theorem nx_dijkstra_noPath (G : Graph) (s t : Node) (hs : s ∈ G.nodes)
    (ht : t ∈ G.nodes) (hnr : ¬ Reach G s t) :
    nx_dijkstra_path G s t = .error .noPath := by
  unfold nx_dijkstra_path weightedSearch
  rw [if_pos ⟨hs, ht⟩]
  have hst : s ≠ t := by
    intro hc
    exact hnr (hc ▸ ⟨[s], isWalkFrom_single G s⟩)
  rw [if_neg hst]
  rcases hloop : dloop G zeroHeuristic t (G.nodes.length + 1) (initD s) [] with
    _ | ⟨d, p⟩
  · rfl
  · rcases dloop_conserve G zeroHeuristic s t (G.nodes.length + 1) (initD s) []
      (initD_conserve G s) d p hloop with ⟨hw, _⟩
    exact absurd ⟨p, hw⟩ hnr

theorem nx_dijkstra_nodeNotFound (G : Graph) (s t : Node)
    (h : ¬ (s ∈ G.nodes ∧ t ∈ G.nodes)) :
    nx_dijkstra_path G s t = .error .nodeNotFound := by
  unfold nx_dijkstra_path weightedSearch
  rw [if_neg h]

theorem nx_astar_none_eq_dijkstra (G : Graph) (s t : Node) :
    nx_astar_path G none s t = nx_dijkstra_path G s t := rfl

end DijkstraWrapper

/-! ## Breadth-first search

Modelled from the spec: the networkx unweighted shortest-path call
(`nx.shortest_path(G, s, t, weight=None)`) is not part of the repository.
Per §4.4 it is a "standard breadth-first search counting edges, not
lengths", marking nodes when first discovered and returning the
reconstructed node sequence, or no-path when the queue exhausts. -/

/-- Enqueue the not-yet-visited neighbours `ys` of a node whose stored
path is `p`, marking them visited as they are enqueued. -/
def enq (p : List Node) : List Node → List (Node × List Node) → List Node →
    List (Node × List Node) × List Node
  | [], q, vis => (q, vis)
  | y :: ys, q, vis =>
    if y ∈ vis then enq p ys q vis
    else enq p ys (q ++ [(y, p ++ [y])]) (vis ++ [y])

/-- The BFS loop: pop the queue head; return its path when it is the
target, otherwise enqueue its undiscovered neighbours and continue. -/
def bfsLoop (G : Graph) (t : Node) :
    Nat → List (Node × List Node) → List Node → Option (List Node)
  | 0, _, _ => none
  | _ + 1, [], _ => none
  | fuel + 1, (v, p) :: rest, vis =>
    if v = t then some p
    else bfsLoop G t fuel (enq p (nbrs G v) rest vis).1 (enq p (nbrs G v) rest vis).2

/-- Modelled from the spec: the unweighted BFS path call of the harness. -/
def nx_bfs_path (G : Graph) (s t : Node) : Except NxError (List Node) :=
  if s ∈ G.nodes ∧ t ∈ G.nodes then
    match bfsLoop G t (G.nodes.length + 1) [(s, [s])] [s] with
    | some p => .ok p
    | none => .error .noPath
  else .error .nodeNotFound

section BfsLemmas

theorem enq_queue_append (p : List Node) :
    ∀ (ys : List Node) (q : List (Node × List Node)) (vis : List Node),
      ∃ qnew, (enq p ys q vis).1 = q ++ qnew
  | [], q, vis => ⟨[], by simp [enq]⟩
  | y :: ys, q, vis => by
    unfold enq
    by_cases hy : y ∈ vis
    · rw [if_pos hy]
      exact enq_queue_append p ys q vis
    · rw [if_neg hy]
      rcases enq_queue_append p ys (q ++ [(y, p ++ [y])]) (vis ++ [y]) with ⟨qnew, hq⟩
      exact ⟨(y, p ++ [y]) :: qnew, by rw [hq]; simp⟩

theorem enq_vis_mono (p : List Node) :
    ∀ (ys : List Node) (q : List (Node × List Node)) (vis : List Node),
      ∀ x ∈ vis, x ∈ (enq p ys q vis).2
  | [], q, vis => by intro x hx; simpa [enq] using hx
  | y :: ys, q, vis => by
    intro x hx
    unfold enq
    by_cases hy : y ∈ vis
    · rw [if_pos hy]
      exact enq_vis_mono p ys q vis x hx
    · rw [if_neg hy]
      exact enq_vis_mono p ys _ _ x (by simp [hx])

theorem enq_ys_vis (p : List Node) :
    ∀ (ys : List Node) (q : List (Node × List Node)) (vis : List Node),
      ∀ y ∈ ys, y ∈ (enq p ys q vis).2
  | [], q, vis => by intro y hy; simp at hy
  | z :: ys, q, vis => by
    intro y hy
    unfold enq
    by_cases hz : z ∈ vis
    · rw [if_pos hz]
      rcases List.mem_cons.mp hy with rfl | hy'
      · exact enq_vis_mono p ys q vis y hz
      · exact enq_ys_vis p ys q vis y hy'
    · rw [if_neg hz]
      rcases List.mem_cons.mp hy with rfl | hy'
      · exact enq_vis_mono p ys _ _ y (by simp)
      · exact enq_ys_vis p ys _ _ y hy'

theorem enq_entries (p : List Node) :
    ∀ (ys : List Node) (q : List (Node × List Node)) (vis : List Node),
      ∀ e ∈ (enq p ys q vis).1, e ∈ q ∨ ∃ y, y ∈ ys ∧ e = (y, p ++ [y])
  | [], q, vis => by intro e he; exact Or.inl he
  | y :: ys, q, vis => by
    intro e he
    unfold enq at he
    by_cases hy : y ∈ vis
    · rw [if_pos hy] at he
      rcases enq_entries p ys q vis e he with h | ⟨z, hz, hez⟩
      · exact Or.inl h
      · exact Or.inr ⟨z, List.mem_cons_of_mem y hz, hez⟩
    · rw [if_neg hy] at he
      rcases enq_entries p ys _ _ e he with h | ⟨z, hz, hez⟩
      · rcases List.mem_append.mp h with h' | h'
        · exact Or.inl h'
        · simp only [List.mem_singleton] at h'
          exact Or.inr ⟨y, List.mem_cons_self y ys, h'⟩
      · exact Or.inr ⟨z, List.mem_cons_of_mem y hz, hez⟩

theorem enq_vis_from (p : List Node) :
    ∀ (ys : List Node) (q : List (Node × List Node)) (vis : List Node),
      ∀ x ∈ (enq p ys q vis).2, x ∈ vis ∨ x ∈ ys
  | [], q, vis => by intro x hx; exact Or.inl (by simpa [enq] using hx)
  | y :: ys, q, vis => by
    intro x hx
    unfold enq at hx
    by_cases hy : y ∈ vis
    · rw [if_pos hy] at hx
      rcases enq_vis_from p ys q vis x hx with h | h
      · exact Or.inl h
      · exact Or.inr (List.mem_cons_of_mem y h)
    · rw [if_neg hy] at hx
      rcases enq_vis_from p ys _ _ x hx with h | h
      · rcases List.mem_append.mp h with h' | h'
        · exact Or.inl h'
        · simp only [List.mem_singleton] at h'
          exact Or.inr (h' ▸ List.mem_cons_self y ys)
      · exact Or.inr (List.mem_cons_of_mem y h)

theorem enq_nodup (p : List Node) :
    ∀ (ys : List Node) (q : List (Node × List Node)) (vis : List Node),
      vis.Nodup → (enq p ys q vis).2.Nodup
  | [], q, vis, h => by simpa [enq] using h
  | y :: ys, q, vis, h => by
    unfold enq
    by_cases hy : y ∈ vis
    · rw [if_pos hy]
      exact enq_nodup p ys q vis h
    · rw [if_neg hy]
      refine enq_nodup p ys _ _ ?_
      simp [List.nodup_append, h, hy]

theorem enq_count (p : List Node) :
    ∀ (ys : List Node) (q : List (Node × List Node)) (vis : List Node),
      (enq p ys q vis).1.length + vis.length = q.length + (enq p ys q vis).2.length
  | [], q, vis => by simp [enq]
  | y :: ys, q, vis => by
    unfold enq
    by_cases hy : y ∈ vis
    · rw [if_pos hy]
      exact enq_count p ys q vis
    · rw [if_neg hy]
      have := enq_count p ys (q ++ [(y, p ++ [y])]) (vis ++ [y])
      simp only [List.length_append, List.length_singleton] at this ⊢
      omega

theorem enq_new_in_queue (p : List Node) :
    ∀ (ys : List Node) (q : List (Node × List Node)) (vis : List Node),
      ∀ x ∈ (enq p ys q vis).2, x ∈ vis ∨ ∃ px, (x, px) ∈ (enq p ys q vis).1
  | [], q, vis => by intro x hx; exact Or.inl (by simpa [enq] using hx)
  | y :: ys, q, vis => by
    intro x hx
    unfold enq at hx ⊢
    by_cases hy : y ∈ vis
    · rw [if_pos hy] at hx ⊢
      exact enq_new_in_queue p ys q vis x hx
    · rw [if_neg hy] at hx ⊢
      rcases enq_new_in_queue p ys _ _ x hx with h | h
      · rcases List.mem_append.mp h with h' | h'
        · exact Or.inl h'
        · simp only [List.mem_singleton] at h'
          subst h'
          rcases enq_queue_append p ys (q ++ [(x, p ++ [x])]) (vis ++ [x]) with ⟨qnew, hq⟩
          refine Or.inr ⟨p ++ [x], ?_⟩
          rw [hq]
          simp
      · exact Or.inr h

theorem closed_confine (G : Graph) (vis : List Node)
    (hcl : ∀ x ∈ vis, ∀ y, Adj G x y → y ∈ vis) :
    ∀ (P : List Node) (x u : Node), IsWalkFrom G x u P → x ∈ vis → u ∈ vis
  | [], x, u, hw => by
    have := walk_ne_nil G x u [] hw
    exact absurd rfl this
  | [z], x, u, hw => by
    intro hx
    rcases walk_single_inv G x u z hw with ⟨rfl, rfl⟩
    exact hx
  | z :: y :: rest, x, u, hw => by
    intro hx
    rcases walk_cons_inv G x u z y rest hw with ⟨rfl, hadj, hw'⟩
    exact closed_confine G vis hcl (y :: rest) y u hw' (hcl z hx y hadj)

end BfsLemmas

section BfsInvariant

/-- BFS loop invariant: queue entries hold genuine walks from `s` and
their nodes are marked visited; visited nodes are graph nodes, pairwise
distinct, and each is either still queued or fully expanded. -/
structure BInv (G : Graph) (s : Node) (queue : List (Node × List Node))
    (vis : List Node) : Prop where
  qsound : ∀ v p, (v, p) ∈ queue → IsWalkFrom G s v p
  qsub : ∀ v p, (v, p) ∈ queue → v ∈ vis
  vsub : ∀ x ∈ vis, x ∈ G.nodes
  vnodup : vis.Nodup
  closed : ∀ x ∈ vis, (∃ p, (x, p) ∈ queue) ∨ (∀ y, Adj G x y → y ∈ vis)

theorem binv_step (G : Graph) (s v : Node) (p : List Node)
    (rest : List (Node × List Node)) (vis : List Node) (hWf : Wf G)
    (inv : BInv G s ((v, p) :: rest) vis) :
    BInv G s (enq p (nbrs G v) rest vis).1 (enq p (nbrs G v) rest vis).2 := by
  have hvp := inv.qsound v p (List.mem_cons_self _ _)
  refine ⟨?_, ?_, ?_, ?_, ?_⟩
  · intro x px hx
    rcases enq_entries p (nbrs G v) rest vis (x, px) hx with h | ⟨y, hy, hee⟩
    · exact inv.qsound x px (List.mem_cons_of_mem _ h)
    · simp only [Prod.mk.injEq] at hee
      rcases hee with ⟨rfl, rfl⟩
      exact walk_snoc G s v x p hvp ((mem_nbrs_iff G v x).mp hy)
  · intro x px hx
    rcases enq_entries p (nbrs G v) rest vis (x, px) hx with h | ⟨y, hy, hee⟩
    · exact enq_vis_mono p (nbrs G v) rest vis x
        (inv.qsub x px (List.mem_cons_of_mem _ h))
    · simp only [Prod.mk.injEq] at hee
      rcases hee with ⟨rfl, rfl⟩
      exact enq_ys_vis p (nbrs G v) rest vis x hy
  · intro x hx
    rcases enq_vis_from p (nbrs G v) rest vis x hx with h | h
    · exact inv.vsub x h
    · exact adj_dst_mem_nodes G hWf v x ((mem_nbrs_iff G v x).mp h)
  · exact enq_nodup p (nbrs G v) rest vis inv.vnodup
  · intro x hx
    rcases enq_new_in_queue p (nbrs G v) rest vis x hx with hxv | ⟨px, hpx⟩
    · rcases inv.closed x hxv with ⟨px, hpx⟩ | hcl
      · rcases List.mem_cons.mp hpx with hhead | hrest
        · simp only [Prod.mk.injEq] at hhead
          rcases hhead with ⟨rfl, rfl⟩
          right
          intro y hadj
          exact enq_ys_vis px (nbrs G x) rest vis y ((mem_nbrs_iff G x y).mpr hadj)
        · left
          rcases enq_queue_append p (nbrs G v) rest vis with ⟨qnew, hq⟩
          exact ⟨px, by rw [hq]; exact List.mem_append_left _ hrest⟩
      · right
        intro y hadj
        exact enq_vis_mono p (nbrs G v) rest vis y (hcl y hadj)
    · exact Or.inl ⟨px, hpx⟩

theorem bfsLoop_sound (G : Graph) (s t : Node) :
    ∀ (fuel : Nat) (queue : List (Node × List Node)) (vis : List Node),
      (∀ v p, (v, p) ∈ queue → IsWalkFrom G s v p) →
      ∀ p, bfsLoop G t fuel queue vis = some p → IsWalkFrom G s t p := by
  intro fuel
  induction fuel with
  | zero => intro queue vis _ p hloop; simp [bfsLoop] at hloop
  | succ n ih =>
    intro queue vis hsound p hloop
    rcases queue with _ | ⟨⟨v, pv⟩, rest⟩
    · simp [bfsLoop] at hloop
    · unfold bfsLoop at hloop
      by_cases hvt : v = t
      · rw [if_pos hvt] at hloop
        simp only [Option.some.injEq] at hloop
        have := hsound v pv (List.mem_cons_self _ _)
        rw [hvt] at this
        exact hloop ▸ this
      · rw [if_neg hvt] at hloop
        refine ih _ _ ?_ p hloop
        intro x px hx
        rcases enq_entries pv (nbrs G v) rest vis (x, px) hx with h | ⟨y, hy, hee⟩
        · exact hsound x px (List.mem_cons_of_mem _ h)
        · simp only [Prod.mk.injEq] at hee
          rcases hee with ⟨rfl, rfl⟩
          exact walk_snoc G s v x pv (hsound v pv (List.mem_cons_self _ _))
            ((mem_nbrs_iff G v x).mp hy)

theorem bfsLoop_found (G : Graph) (t : Node) (hWf : Wf G) :
    ∀ (fuel : Nat) (queue : List (Node × List Node)) (vis : List Node),
      (∀ v p, (v, p) ∈ queue → v ∈ vis) → vis.Nodup →
      (∀ x ∈ vis, x ∈ G.nodes) →
      G.nodes.length + queue.length + 1 ≤ fuel + vis.length →
      (∃ pt, (t, pt) ∈ queue) → (bfsLoop G t fuel queue vis).isSome := by
  intro fuel
  induction fuel with
  | zero =>
    intro queue vis _ hnd hsub hbound _
    have hsub' : vis ⊆ G.nodes := by intro x hx; exact hsub x hx
    have := (List.subperm_of_subset hnd hsub').length_le
    omega
  | succ n ih =>
    intro queue vis hqsub hnd hsub hbound ht
    rcases queue with _ | ⟨⟨v, pv⟩, rest⟩
    · rcases ht with ⟨pt, hpt⟩
      simp at hpt
    · unfold bfsLoop
      by_cases hvt : v = t
      · rw [if_pos hvt]; simp
      · rw [if_neg hvt]
        rcases ht with ⟨pt, hpt⟩
        have htr : (t, pt) ∈ rest := by
          rcases List.mem_cons.mp hpt with hhead | hrest
          · simp only [Prod.mk.injEq] at hhead
            exact absurd hhead.1.symm hvt
          · exact hrest
        refine ih _ _ ?_ (enq_nodup pv (nbrs G v) rest vis hnd) ?_ ?_ ?_
        · intro x px hx
          rcases enq_entries pv (nbrs G v) rest vis (x, px) hx with h | ⟨y, hy, hee⟩
          · exact enq_vis_mono pv (nbrs G v) rest vis x
              (hqsub x px (List.mem_cons_of_mem _ h))
          · simp only [Prod.mk.injEq] at hee
            rcases hee with ⟨rfl, rfl⟩
            exact enq_ys_vis pv (nbrs G v) rest vis x hy
        · intro x hx
          rcases enq_vis_from pv (nbrs G v) rest vis x hx with h | h
          · exact hsub x h
          · exact adj_dst_mem_nodes G hWf v x ((mem_nbrs_iff G v x).mp h)
        · have hcount := enq_count pv (nbrs G v) rest vis
          simp only [List.length_cons] at hbound
          omega
        · rcases enq_queue_append pv (nbrs G v) rest vis with ⟨qnew, hq⟩
          exact ⟨pt, by rw [hq]; exact List.mem_append_left _ htr⟩

theorem bfsLoop_none (G : Graph) (s t : Node) (hWf : Wf G) :
    ∀ (fuel : Nat) (queue : List (Node × List Node)) (vis : List Node),
      BInv G s queue vis →
      G.nodes.length + queue.length + 1 ≤ fuel + vis.length →
      t ∉ vis →
      bfsLoop G t fuel queue vis = none →
      ∀ x ∈ vis, ¬ ∃ P, IsWalkFrom G x t P := by
  intro fuel
  induction fuel with
  | zero =>
    intro queue vis inv hbound _ _
    have hsub' : vis ⊆ G.nodes := by intro x hx; exact inv.vsub x hx
    have := (List.subperm_of_subset inv.vnodup hsub').length_le
    omega
  | succ n ih =>
    intro queue vis inv hbound htvis hloop
    rcases queue with _ | ⟨⟨v, pv⟩, rest⟩
    · intro x hx ⟨P, hP⟩
      have hcl : ∀ z ∈ vis, ∀ y, Adj G z y → y ∈ vis := by
        intro z hz y hadj
        rcases inv.closed z hz with ⟨pz, hpz⟩ | h
        · simp at hpz
        · exact h y hadj
      exact htvis (closed_confine G vis hcl P x t hP hx)
    · unfold bfsLoop at hloop
      by_cases hvt : v = t
      · rw [if_pos hvt] at hloop
        simp at hloop
      · rw [if_neg hvt] at hloop
        have hstep := binv_step G s v pv rest vis hWf inv
        have hbound' : G.nodes.length + (enq pv (nbrs G v) rest vis).1.length + 1 ≤
            n + (enq pv (nbrs G v) rest vis).2.length := by
          have hcount := enq_count pv (nbrs G v) rest vis
          simp only [List.length_cons] at hbound
          omega
        by_cases htv : t ∈ (enq pv (nbrs G v) rest vis).2
        · exfalso
          rcases enq_new_in_queue pv (nbrs G v) rest vis t htv with h | ⟨pt, hpt⟩
          · exact htvis h
          · have := bfsLoop_found G t hWf n (enq pv (nbrs G v) rest vis).1
              (enq pv (nbrs G v) rest vis).2
              (fun x px hx => hstep.qsub x px hx) hstep.vnodup
              (fun x hx => hstep.vsub x hx) hbound' ⟨pt, hpt⟩
            rw [hloop] at this
            simp at this
        · intro x hx
          exact ih _ _ hstep hbound' htv hloop x
            (enq_vis_mono pv (nbrs G v) rest vis x hx)

theorem nx_bfs_ok (G : Graph) (s t : Node) (hWf : Wf G) (hs : s ∈ G.nodes)
    (ht : t ∈ G.nodes) (hr : Reach G s t) :
    ∃ p, nx_bfs_path G s t = .ok p ∧ IsWalkFrom G s t p := by
  unfold nx_bfs_path
  rw [if_pos ⟨hs, ht⟩]
  rcases hloop : bfsLoop G t (G.nodes.length + 1) [(s, [s])] [s] with _ | p
  · exfalso
    by_cases hst : s = t
    · subst hst
      simp [bfsLoop] at hloop
    · have hinv : BInv G s [(s, [s])] [s] := by
        refine ⟨?_, ?_, ?_, ?_, ?_⟩
        · intro v p hv
          simp only [List.mem_singleton, Prod.mk.injEq] at hv
          rcases hv with ⟨rfl, rfl⟩
          exact isWalkFrom_single G v
        · intro v p hv
          simp only [List.mem_singleton, Prod.mk.injEq] at hv
          simp [hv.1]
        · intro x hx
          simp only [List.mem_singleton] at hx
          rw [hx]; exact hs
        · simp
        · intro x hx
          simp only [List.mem_singleton] at hx
          exact Or.inl ⟨[s], by rw [hx]; exact List.mem_singleton_self _⟩
      have := bfsLoop_none G s t hWf (G.nodes.length + 1) [(s, [s])] [s] hinv
        (by simp) (by simp [Ne.symm hst]) hloop s (by simp)
      exact this hr
  · exact ⟨p, rfl, bfsLoop_sound G s t (G.nodes.length + 1) [(s, [s])] [s]
      (by
        intro v p hv
        simp only [List.mem_singleton, Prod.mk.injEq] at hv
        rcases hv with ⟨rfl, rfl⟩
        exact isWalkFrom_single G v) p hloop⟩

theorem nx_bfs_noPath (G : Graph) (s t : Node) (hs : s ∈ G.nodes)
    (ht : t ∈ G.nodes) (hnr : ¬ Reach G s t) :
    nx_bfs_path G s t = .error .noPath := by
  unfold nx_bfs_path
  rw [if_pos ⟨hs, ht⟩]
  rcases hloop : bfsLoop G t (G.nodes.length + 1) [(s, [s])] [s] with _ | p
  · rfl
  · exfalso
    refine hnr ⟨p, bfsLoop_sound G s t (G.nodes.length + 1) [(s, [s])] [s] ?_ p hloop⟩
    intro v pv hv
    simp only [List.mem_singleton, Prod.mk.injEq] at hv
    rcases hv with ⟨rfl, rfl⟩
    exact isWalkFrom_single G v

theorem nx_bfs_self (G : Graph) (s : Node) (hs : s ∈ G.nodes) :
    nx_bfs_path G s s = .ok [s] := by
  unfold nx_bfs_path
  rw [if_pos ⟨hs, hs⟩]
  simp [bfsLoop]

end BfsInvariant

/-! ## Bellman-Ford

Modelled from the spec: the networkx Bellman-Ford call
(`nx.shortest_path(..., method="bellman-ford")` / `nx.bellman_ford_path`)
is not part of the repository.  Per §4.5 it "runs |V|−1 relaxation passes
over all edges; a subsequent pass that still finds an improvement
indicates a negative cycle reachable from the source — in that case the
procedure fails with a negative-cycle-detected condition", and per §8 a
source equal to the target yields the trivial single-node path before any
relaxation. -/

/-- The distinct ordered node pairs joined by at least one edge. -/
def edgePairs (G : Graph) : List (Node × Node) :=
  (G.edges.map (fun e => (e.src, e.dst))).dedup

/-- One relaxation of the node pair `pr` (with the minimum-length
parallel edge as its weight). -/
def bfRelaxPair (G : Graph) (D : DMap) : Node × Node → DMap
  | (u, v) =>
    match D u with
    | none => D
    | some (du, pu) => relax1 du pu (wmin G u v) v D

/-- One full relaxation pass over all edges. -/
def bfPass (G : Graph) (D : DMap) : DMap :=
  (edgePairs G).foldl (bfRelaxPair G) D

/-- `n` relaxation passes. -/
def bfIter (G : Graph) : Nat → DMap → DMap
  | 0, D => D
  | n + 1, D => bfIter G n (bfPass G D)

/-- Does relaxing `pr` still improve the state? -/
def improvesPair (G : Graph) (D : DMap) : Node × Node → Bool
  | (u, v) =>
    match D u with
    | none => false
    | some (du, _) =>
      match D v with
      | none => true
      | some (dv, _) => decide (du + wmin G u v < dv)

/-- The detection pass: would one more pass over all edges improve? -/
def bfImproves (G : Graph) (D : DMap) : Bool :=
  (edgePairs G).any (improvesPair G D)

/-- Modelled from the spec: the Bellman-Ford path call of the harness.
|V|−1 relaxation passes, then the detection pass deciding
negative-cycle failure, then path extraction or no-path. -/
def nx_bellman_ford_path (G : Graph) (s t : Node) : Except NxError (List Node) :=
  if s ∈ G.nodes ∧ t ∈ G.nodes then
    if s = t then .ok [s]
    else
      if bfImproves G (bfIter G (G.nodes.length - 1) (initD s)) then
        .error .negativeCycle
      else
        match bfIter G (G.nodes.length - 1) (initD s) t with
        | some (_, p) => .ok p
        | none => .error .noPath
  else .error .nodeNotFound

section BellmanFordLemmas

theorem mem_edgePairs_iff (G : Graph) (u v : Node) :
    (u, v) ∈ edgePairs G ↔ Adj G u v := by
  unfold edgePairs Adj parallelLengths
  rw [List.mem_dedup, List.mem_map]
  constructor
  · rintro ⟨e, he, hev⟩
    simp only [Prod.mk.injEq] at hev
    intro hnil
    rw [List.map_eq_nil_iff, List.filter_eq_nil_iff] at hnil
    refine hnil e he ?_
    simp only [Bool.and_eq_true, beq_iff_eq]
    exact ⟨hev.1, hev.2⟩
  · intro hne
    rw [Ne, List.map_eq_nil_iff, ← Ne] at hne
    rcases List.exists_mem_of_ne_nil _ hne with ⟨e, he⟩
    have hmem := List.mem_filter.mp he
    have hsd : e.src = u ∧ e.dst = v := by
      have := hmem.2
      simp only [Bool.and_eq_true, beq_iff_eq] at this
      exact this
    exact ⟨e, hmem.1, by rw [hsd.1, hsd.2]⟩

/-- `D1` improves on (or matches) `D2` pointwise. -/
def Dle (D1 D2 : DMap) : Prop :=
  ∀ v d2 p2, D2 v = some (d2, p2) → ∃ d1 p1, D1 v = some (d1, p1) ∧ d1 ≤ d2

theorem Dle_refl (D : DMap) : Dle D D := by
  intro v d p hv
  exact ⟨d, p, hv, le_refl d⟩

theorem Dle_trans (D1 D2 D3 : DMap) (h12 : Dle D1 D2) (h23 : Dle D2 D3) :
    Dle D1 D3 := by
  intro v d3 p3 hv
  rcases h23 v d3 p3 hv with ⟨d2, p2, hv2, h2⟩
  rcases h12 v d2 p2 hv2 with ⟨d1, p1, hv1, h1⟩
  exact ⟨d1, p1, hv1, le_trans h1 h2⟩

theorem relax1_Dle (du : ℤ) (pu : List Node) (w : ℤ) (v : Node) (D : DMap) :
    Dle (relax1 du pu w v D) D := by
  intro x dx px hx
  exact relax1_le_old du pu w v D x dx px hx

theorem bfRelaxPair_Dle (G : Graph) (D : DMap) (pr : Node × Node) :
    Dle (bfRelaxPair G D pr) D := by
  rcases pr with ⟨u, v⟩
  rcases hDu : D u with _ | ⟨du, pu⟩
  · simp only [bfRelaxPair, hDu]
    exact Dle_refl D
  · simp only [bfRelaxPair, hDu]
    exact relax1_Dle du pu (wmin G u v) v D

theorem foldl_bfRelax_Dle (G : Graph) :
    ∀ (l : List (Node × Node)) (D : DMap), Dle (l.foldl (bfRelaxPair G) D) D
  | [], D => Dle_refl D
  | pr :: l, D => by
    rw [List.foldl_cons]
    exact Dle_trans _ _ _ (foldl_bfRelax_Dle G l (bfRelaxPair G D pr))
      (bfRelaxPair_Dle G D pr)

theorem bfPass_Dle (G : Graph) (D : DMap) : Dle (bfPass G D) D :=
  foldl_bfRelax_Dle G (edgePairs G) D

theorem bfIter_Dle (G : Graph) :
    ∀ (n : Nat) (D : DMap), Dle (bfIter G n D) D
  | 0, D => Dle_refl D
  | n + 1, D => by
    unfold bfIter
    exact Dle_trans _ _ _ (bfIter_Dle G n (bfPass G D)) (bfPass_Dle G D)

theorem bfIter_succ_comm (G : Graph) :
    ∀ (n : Nat) (D : DMap), bfIter G (n + 1) D = bfPass G (bfIter G n D)
  | 0, D => rfl
  | n + 1, D => by
    show bfIter G (n + 1) (bfPass G D) = _
    rw [bfIter_succ_comm G n (bfPass G D)]
    rfl

theorem relax1_charac (du : ℤ) (pu : List Node) (w : ℤ) (v : Node) (D : DMap)
    (x : Node) (d : ℤ) (p : List Node) (hx : relax1 du pu w v D x = some (d, p)) :
    D x = some (d, p) ∨ (x = v ∧ d = du + w ∧ p = pu ++ [v]) := by
  by_cases hxv : x = v
  · subst hxv
    rcases relax1_at du pu w x D with ⟨h1, h2⟩ | ⟨dv, pv, h1, h2, h3⟩ | ⟨dv, pv, h1, h2, h3⟩
    · rw [h2] at hx
      simp only [Option.some.injEq, Prod.mk.injEq] at hx
      exact Or.inr ⟨rfl, hx.1.symm, hx.2.symm⟩
    · rw [h3] at hx
      simp only [Option.some.injEq, Prod.mk.injEq] at hx
      exact Or.inr ⟨rfl, hx.1.symm, hx.2.symm⟩
    · rw [h3] at hx
      exact Or.inl hx
  · rw [relax1_ne du pu w v D x hxv] at hx
    exact Or.inl hx

/-- Conservation through the Bellman-Ford passes: every stored entry is a
genuine walk from `s` with matching weight. -/
def BfConserve (G : Graph) (s : Node) (D : DMap) : Prop :=
  ∀ v d p, D v = some (d, p) → IsWalkFrom G s v p ∧ walkWeight G p = d

theorem bfRelaxPair_conserve (G : Graph) (s : Node) (D : DMap) (pr : Node × Node)
    (hadj : Adj G pr.1 pr.2) (hc : BfConserve G s D) :
    BfConserve G s (bfRelaxPair G D pr) := by
  rcases pr with ⟨u, w⟩
  have hadj2 : Adj G u w := hadj
  rcases hDu : D u with _ | ⟨du, pu⟩
  · simp only [bfRelaxPair, hDu]
    exact hc
  · simp only [bfRelaxPair, hDu]
    intro v d p hv
    rcases relax1_charac du pu (wmin G u w) w D v d p hv with h | ⟨rfl, rfl, rfl⟩
    · exact hc v d p h
    · rcases hc u du pu hDu with ⟨hw, hwe⟩
      refine ⟨walk_snoc G s u v pu hw hadj2, ?_⟩
      rw [walkWeight_snoc G u v pu (walk_last_eq G s u pu hw), hwe]

theorem foldl_bfRelax_conserve (G : Graph) (s : Node) :
    ∀ (l : List (Node × Node)) (D : DMap),
      (∀ pr ∈ l, Adj G pr.1 pr.2) → BfConserve G s D →
      BfConserve G s (l.foldl (bfRelaxPair G) D)
  | [], D, _, hc => hc
  | pr :: l, D, hadj, hc => by
    rw [List.foldl_cons]
    refine foldl_bfRelax_conserve G s l _ ?_ ?_
    · intro pr' hpr'
      exact hadj pr' (List.mem_cons_of_mem pr hpr')
    · exact bfRelaxPair_conserve G s D pr (hadj pr (List.mem_cons_self pr l)) hc

theorem bfPass_conserve (G : Graph) (s : Node) (D : DMap) (hc : BfConserve G s D) :
    BfConserve G s (bfPass G D) := by
  refine foldl_bfRelax_conserve G s (edgePairs G) D ?_ hc
  intro pr hpr
  exact (mem_edgePairs_iff G pr.1 pr.2).mp (by rw [← Prod.mk.eta (p := pr)] at hpr; exact hpr)

theorem bfIter_conserve (G : Graph) (s : Node) :
    ∀ (n : Nat) (D : DMap), BfConserve G s D → BfConserve G s (bfIter G n D)
  | 0, D, hc => hc
  | n + 1, D, hc => bfIter_conserve G s n (bfPass G D) (bfPass_conserve G s D hc)

theorem initD_bfConserve (G : Graph) (s : Node) : BfConserve G s (initD s) := by
  intro v d p hv
  rcases initD_inv s v d p hv with ⟨rfl, rfl, rfl⟩
  exact ⟨isWalkFrom_single G v, rfl⟩

end BellmanFordLemmas

section BellmanFordBound

theorem bfPass_le_pair (G : Graph) (D : DMap) (u v : Node)
    (hmem : (u, v) ∈ edgePairs G) (du : ℤ) (pu : List Node)
    (hDu : D u = some (du, pu)) :
    ∃ dv pv, bfPass G D v = some (dv, pv) ∧ dv ≤ du + wmin G u v := by
  rcases List.append_of_mem hmem with ⟨l₁, l₂, hsplit⟩
  unfold bfPass
  rw [hsplit, List.foldl_append, List.foldl_cons]
  set D₁ := l₁.foldl (bfRelaxPair G) D with hD₁
  rcases foldl_bfRelax_Dle G l₁ D u du pu hDu with ⟨du', pu', hDu', hle'⟩
  rw [← hD₁] at hDu'
  have hrelax : ∃ dv pv, bfRelaxPair G D₁ (u, v) v = some (dv, pv) ∧
      dv ≤ du' + wmin G u v := by
    simp only [bfRelaxPair, hDu']
    exact relax1_le_cand du' pu' (wmin G u v) v D₁
  rcases hrelax with ⟨dv, pv, hDv, hlev⟩
  rcases foldl_bfRelax_Dle G l₂ (bfRelaxPair G D₁ (u, v)) v dv pv hDv with
    ⟨dv', pv', hDv', hlev'⟩
  refine ⟨dv', pv', hDv', ?_⟩
  have := wmin_nonneg
  linarith

theorem walk_snoc_decomp (G : Graph) (s v : Node) (P : List Node)
    (hw : IsWalkFrom G s v P) (hlen : 2 ≤ P.length) :
    ∃ Q u, P = Q ++ [v] ∧ IsWalkFrom G s u Q ∧ Adj G u v ∧
      walkWeight G P = walkWeight G Q + wmin G u v ∧ Q.length + 1 = P.length := by
  rcases List.eq_nil_or_concat P with rfl | ⟨Q, b, rfl⟩
  · simp at hlen
  · rw [List.concat_eq_append] at hw hlen ⊢
    have hb : b = v := by
      have := walk_last_eq G s v (Q ++ [b]) hw
      rw [List.getLast?_concat] at this
      simp only [Option.some.injEq] at this
      exact this
    subst hb
    have hQne : Q ≠ [] := by
      intro hc
      rw [hc] at hlen
      simp at hlen
    rcases List.exists_mem_of_ne_nil Q hQne with ⟨x0, _⟩
    have hlast : ∃ u, Q.getLast? = some u := by
      rcases hq : Q.getLast? with _ | u
      · rw [List.getLast?_eq_none_iff] at hq
        exact absurd hq hQne
      · exact ⟨u, rfl⟩
    rcases hlast with ⟨u, hu⟩
    rcases hw with ⟨h1, h2, h3⟩
    rw [List.chain'_append] at h3
    rcases h3 with ⟨hc1, _, hlink⟩
    have hadj : Adj G u b := by
      have := hlink u (by rw [Option.mem_def]; exact hu) b (by simp)
      exact this
    refine ⟨Q, u, rfl, ⟨?_, hu, hc1⟩, hadj, ?_, by simp⟩
    · rcases Q with _ | ⟨q0, Q'⟩
      · exact absurd rfl hQne
      · simpa using h1
    · exact walkWeight_snoc G u b Q hu

theorem bfIter_walk_bound (G : Graph) (s : Node) :
    ∀ (k : Nat) (P : List Node) (v : Node), IsWalkFrom G s v P →
      P.length ≤ k + 1 →
      ∃ d p, bfIter G k (initD s) v = some (d, p) ∧ d ≤ walkWeight G P := by
  intro k
  induction k with
  | zero =>
    intro P v hw hlen
    have hne := walk_ne_nil G s v P hw
    have hP : ∃ z, P = [z] := by
      rcases P with _ | ⟨z, rest⟩
      · exact absurd rfl hne
      · rcases rest with _ | ⟨w, rest'⟩
        · exact ⟨z, rfl⟩
        · simp at hlen
    rcases hP with ⟨z, rfl⟩
    rcases walk_single_inv G s v z hw with ⟨rfl, rfl⟩
    refine ⟨0, [z], ?_, by simp⟩
    unfold bfIter initD
    simp
  | succ k ih =>
    intro P v hw hlen
    rw [bfIter_succ_comm]
    by_cases hsmall : P.length ≤ k + 1
    · rcases ih P v hw hsmall with ⟨d, p, hD, hle⟩
      rcases bfPass_Dle G (bfIter G k (initD s)) v d p hD with ⟨d', p', hD', hle'⟩
      exact ⟨d', p', hD', le_trans hle' hle⟩
    · have hlen2 : 2 ≤ P.length := by
        have hne := walk_ne_nil G s v P hw
        rcases P with _ | ⟨z, rest⟩
        · exact absurd rfl hne
        · rcases rest with _ | ⟨w, rest'⟩
          · simp at hsmall
          · simp only [List.length_cons]
            omega
      rcases walk_snoc_decomp G s v P hw hlen2 with ⟨Q, u, rfl, hQ, hadj, hwt, hql⟩
      have hQlen : Q.length ≤ k + 1 := by omega
      rcases ih Q u hQ hQlen with ⟨du, pu, hDu, hleu⟩
      rcases bfPass_le_pair G (bfIter G k (initD s)) u v
        ((mem_edgePairs_iff G u v).mpr hadj) du pu hDu with ⟨dv, pv, hDv, hlev⟩
      refine ⟨dv, pv, hDv, ?_⟩
      rw [hwt]
      linarith

/-- The state is stable: no edge relaxation improves it. -/
def BfStable (G : Graph) (D : DMap) : Prop :=
  ∀ u v, Adj G u v → ∀ du pu, D u = some (du, pu) →
    ∃ dv pv, D v = some (dv, pv) ∧ dv ≤ du + wmin G u v

theorem bfImproves_false_stable (G : Graph) (D : DMap)
    (h : bfImproves G D = false) : BfStable G D := by
  intro u v hadj du pu hDu
  have hmem : (u, v) ∈ edgePairs G := (mem_edgePairs_iff G u v).mpr hadj
  have hpr : improvesPair G D (u, v) = false := by
    rw [bfImproves, List.any_eq_false] at h
    rw [Bool.eq_false_iff]
    exact h (u, v) hmem
  simp only [improvesPair, hDu] at hpr
  rcases hDv : D v with _ | ⟨dv, pv⟩
  · simp [hDv] at hpr
  · simp only [hDv, decide_eq_false_iff_not, not_lt] at hpr
    exact ⟨dv, pv, rfl, hpr⟩

theorem stable_walk (G : Graph) (D : DMap) (hst : BfStable G D) :
    ∀ (P : List Node) (a b : Node), IsWalkFrom G a b P →
      ∀ da pa, D a = some (da, pa) →
      ∃ db pb, D b = some (db, pb) ∧ db ≤ da + walkWeight G P
  | [], a, b, hw => by
    have := walk_ne_nil G a b [] hw
    exact absurd rfl this
  | [z], a, b, hw => by
    intro da pa hDa
    rcases walk_single_inv G a b z hw with ⟨rfl, rfl⟩
    exact ⟨da, pa, hDa, by simp⟩
  | z :: y :: rest, a, b, hw => by
    intro da pa hDa
    rcases walk_cons_inv G a b z y rest hw with ⟨rfl, hadj, hw'⟩
    rcases hst z y hadj da pa hDa with ⟨dy, py, hDy, hley⟩
    rcases stable_walk G D hst (y :: rest) y b hw' dy py hDy with ⟨db, pb, hDb, hleb⟩
    refine ⟨db, pb, hDb, ?_⟩
    rw [walkWeight_cons_cons]
    linarith

theorem bf_no_improve (G : Graph) (s : Node) (hWf : Wf G) (hs : s ∈ G.nodes)
    (hnc : NoNegCycleFrom G s) :
    bfImproves G (bfIter G (G.nodes.length - 1) (initD s)) = false := by
  by_contra hcon
  rw [Bool.not_eq_false, bfImproves, List.any_eq_true] at hcon
  rcases hcon with ⟨pr, hmem, hpr⟩
  rcases pr with ⟨u, v⟩
  have hadj : Adj G u v := (mem_edgePairs_iff G u v).mp hmem
  set D := bfIter G (G.nodes.length - 1) (initD s) with hD
  rcases hDu : D u with _ | ⟨du, pu⟩
  · simp [improvesPair, hDu] at hpr
  · simp only [improvesPair, hDu] at hpr
    rcases bfIter_conserve G s (G.nodes.length - 1) (initD s)
      (initD_bfConserve G s) u du pu hDu with ⟨hwu, hweu⟩
    have hwv : IsWalkFrom G s v (pu ++ [v]) := walk_snoc G s u v pu hwu hadj
    have hwvw : walkWeight G (pu ++ [v]) = du + wmin G u v := by
      rw [walkWeight_snoc G u v pu (walk_last_eq G s u pu hwu), hweu]
    have hlen1 : 1 ≤ G.nodes.length := by
      rcases hn : G.nodes with _ | ⟨n0, ns⟩
      · rw [hn] at hs; simp at hs
      · simp
    rcases cycElim G s hnc (pu ++ [v]).length (pu ++ [v]) v (le_refl _) hwv with
      ⟨Q, hQw, hQnd, hQwt, _⟩
    have hQlen : Q.length ≤ (G.nodes.length - 1) + 1 := by
      have := nodup_walk_length_le G hWf s v Q hs hQw hQnd
      omega
    rcases bfIter_walk_bound G s (G.nodes.length - 1) Q v hQw hQlen with
      ⟨dv, pv, hDv, hlev⟩
    rw [← hD] at hDv
    simp only [hDv, decide_eq_true_eq] at hpr
    rw [hwvw] at hQwt
    linarith

theorem bf_detects_negcycle (G : Graph) (s : Node) (x : Node) (c : List Node)
    (hcyc : IsWalkFrom G x x c) (hneg : walkWeight G c < 0) (hrx : Reach G s x) :
    bfImproves G (bfIter G (G.nodes.length - 1) (initD s)) = true := by
  by_contra hcon
  rw [Bool.not_eq_true] at hcon
  have hst := bfImproves_false_stable G _ hcon
  set D := bfIter G (G.nodes.length - 1) (initD s) with hD
  have hDs : ∃ d0 p0, D s = some (d0, p0) := by
    rcases bfIter_Dle G (G.nodes.length - 1) (initD s) s 0 [s]
      (by unfold initD; simp) with ⟨d0, p0, hD0, _⟩
    exact ⟨d0, p0, hD0⟩
  rcases hDs with ⟨d0, p0, hDs⟩
  rcases hrx with ⟨P, hP⟩
  rcases stable_walk G D hst P s x hP d0 p0 hDs with ⟨dx, px, hDx, _⟩
  rcases stable_walk G D hst c x x hcyc dx px hDx with ⟨dx', px', hDx', hlex⟩
  rw [hDx] at hDx'
  simp only [Option.some.injEq, Prod.mk.injEq] at hDx'
  rw [hDx'.1] at hlex
  linarith

end BellmanFordBound

section BellmanFordWrapper

theorem bfIter_reach_some (G : Graph) (s t : Node) (hWf : Wf G) (hs : s ∈ G.nodes)
    (hnc : NoNegCycleFrom G s) (hr : Reach G s t) :
    ∃ d p, bfIter G (G.nodes.length - 1) (initD s) t = some (d, p) := by
  rcases hr with ⟨P, hP⟩
  rcases cycElim G s hnc P.length P t (le_refl _) hP with ⟨Q, hQw, hQnd, _, _⟩
  have hQlen : Q.length ≤ (G.nodes.length - 1) + 1 := by
    have h1 := nodup_walk_length_le G hWf s t Q hs hQw hQnd
    have hlen1 : 1 ≤ G.nodes.length := by
      rcases hn : G.nodes with _ | ⟨n0, ns⟩
      · rw [hn] at hs; simp at hs
      · simp
    omega
  rcases bfIter_walk_bound G s (G.nodes.length - 1) Q t hQw hQlen with ⟨d, p, hD, _⟩
  exact ⟨d, p, hD⟩

theorem nx_bf_ok (G : Graph) (s t : Node) (hWf : Wf G) (hs : s ∈ G.nodes)
    (ht : t ∈ G.nodes) (hnc : NoNegCycleFrom G s) (hr : Reach G s t) :
    ∃ p, nx_bellman_ford_path G s t = .ok p ∧ IsWalkFrom G s t p ∧
      ∀ q, IsWalkFrom G s t q → walkWeight G p ≤ walkWeight G q := by
  unfold nx_bellman_ford_path
  rw [if_pos ⟨hs, ht⟩]
  by_cases hst : s = t
  · rw [if_pos hst]
    subst hst
    refine ⟨[s], rfl, isWalkFrom_single G s, ?_⟩
    intro q hq
    simpa using hnc s q ⟨[s], isWalkFrom_single G s⟩ hq
  · rw [if_neg hst]
    have himp := bf_no_improve G s hWf hs hnc
    rw [if_neg (by rw [himp]; simp)]
    rcases bfIter_reach_some G s t hWf hs hnc hr with ⟨d, p, hD⟩
    rw [hD]
    rcases bfIter_conserve G s (G.nodes.length - 1) (initD s)
      (initD_bfConserve G s) t d p hD with ⟨hw, hwe⟩
    refine ⟨p, rfl, hw, ?_⟩
    intro q hq
    have hst' := bfImproves_false_stable G _ himp
    have hd0 : ∃ p0, ∃ d0 ≤ (0 : ℤ),
        bfIter G (G.nodes.length - 1) (initD s) s = some (d0, p0) := by
      rcases bfIter_Dle G (G.nodes.length - 1) (initD s) s 0 [s]
        (by unfold initD; simp) with ⟨d0, p0, hD0, hle0⟩
      exact ⟨p0, d0, hle0, hD0⟩
    rcases hd0 with ⟨p0, d0, hle0, hD0⟩
    rcases stable_walk G _ hst' q s t hq d0 p0 hD0 with ⟨dt, pt, hDt, hlet⟩
    rw [hD] at hDt
    simp only [Option.some.injEq, Prod.mk.injEq] at hDt
    rw [hwe, hDt.1]
    linarith

theorem nx_bf_noPath (G : Graph) (s t : Node) (hWf : Wf G) (hs : s ∈ G.nodes)
    (ht : t ∈ G.nodes) (hnc : NoNegCycleFrom G s) (hnr : ¬ Reach G s t) :
    nx_bellman_ford_path G s t = .error .noPath := by
  unfold nx_bellman_ford_path
  rw [if_pos ⟨hs, ht⟩]
  have hst : s ≠ t := by
    intro hc
    exact hnr (hc ▸ ⟨[s], isWalkFrom_single G s⟩)
  rw [if_neg hst]
  have himp := bf_no_improve G s hWf hs hnc
  rw [if_neg (by rw [himp]; simp)]
  rcases hD : bfIter G (G.nodes.length - 1) (initD s) t with _ | ⟨d, p⟩
  · rfl
  · rcases bfIter_conserve G s (G.nodes.length - 1) (initD s)
      (initD_bfConserve G s) t d p hD with ⟨hw, _⟩
    exact absurd ⟨p, hw⟩ hnr

theorem nx_bf_negCycle (G : Graph) (s t : Node) (hs : s ∈ G.nodes)
    (ht : t ∈ G.nodes) (hst : s ≠ t) (x : Node) (c : List Node)
    (hcyc : IsWalkFrom G x x c) (hneg : walkWeight G c < 0) (hrx : Reach G s x) :
    nx_bellman_ford_path G s t = .error .negativeCycle := by
  unfold nx_bellman_ford_path
  rw [if_pos ⟨hs, ht⟩, if_neg hst]
  rw [if_pos (by rw [bf_detects_negcycle G s x c hcyc hneg hrx])]

theorem nx_bf_self (G : Graph) (s : Node) (hs : s ∈ G.nodes) :
    nx_bellman_ford_path G s s = .ok [s] := by
  unfold nx_bellman_ford_path
  rw [if_pos ⟨hs, hs⟩, if_pos rfl]

end BellmanFordWrapper

/-! ## Execution harness and comparison engine (`src/app.py`) -/

/-- The tuple returned by `run_algorithm`: `(path, path_length, exec_time)`.
Wall-clock time is supplied by the environment, so `run_algorithm` takes it
as an oracle argument and passes it through. -/
structure RunResult where
  path : List Node
  length : ℤ
  elapsed : ℤ
deriving DecidableEq, Repr

/-- Failures of `run_algorithm`: a propagated networkx error, or the
`ValueError("Unknown algorithm selected")` of the dispatch. -/
inductive RunError where
  | nxerr (e : NxError)
  | invalidAlgorithm
deriving DecidableEq, Repr

instance {ε α : Type} [DecidableEq ε] [DecidableEq α] :
    DecidableEq (Except ε α) := fun x y =>
  match x, y with
  | .ok a, .ok b =>
    if h : a = b then .isTrue (by rw [h])
    else .isFalse (by intro hc; injection hc; contradiction)
  | .error e, .error f =>
    if h : e = f then .isTrue (by rw [h])
    else .isFalse (by intro hc; injection hc; contradiction)
  | .ok _, .error _ => .isFalse (by intro hc; injection hc)
  | .error _, .ok _ => .isFalse (by intro hc; injection hc)

/-- The fixed algorithm order of `compare_all_algorithms`. -/
def algorithms_list : List String := ["Dijkstra", "A*", "BFS", "Bellman-Ford"]

/-- `run_algorithm` from `src/app.py`: dispatch on the algorithm name
(raising the invalid-argument error on an unknown name before any search),
then compute the reported path length — via `nx.path_weight` (summing
minimum-length parallel edges) for the weighted algorithms, and via the
ad-hoc index-0 parallel-edge sum for BFS.  The A* call passes no
heuristic, mirroring `nx.astar_path(G, start_node, end_node,
weight="length")`. -/
def run_algorithm (G : Graph) (start_node end_node : Node) (algorithm : String)
    (elapsed : ℤ) : Except RunError RunResult :=
  if algorithm = "Dijkstra" then
    match nx_dijkstra_path G start_node end_node with
    | .ok p => .ok ⟨p, nx_path_weight G p, elapsed⟩
    | .error e => .error (.nxerr e)
  else if algorithm = "A*" then
    match nx_astar_path G none start_node end_node with
    | .ok p => .ok ⟨p, nx_path_weight G p, elapsed⟩
    | .error e => .error (.nxerr e)
  else if algorithm = "BFS" then
    match nx_bfs_path G start_node end_node with
    | .ok p => .ok ⟨p, edge0Weight G p, elapsed⟩
    | .error e => .error (.nxerr e)
  else if algorithm = "Bellman-Ford" then
    match nx_bellman_ford_path G start_node end_node with
    | .ok p => .ok ⟨p, nx_path_weight G p, elapsed⟩
    | .error e => .error (.nxerr e)
  else .error .invalidAlgorithm

/-- One row of the comparison table built by `compare_all_algorithms`. -/
structure AlgoRecord where
  algorithm : String
  distance_km : ℚ
  time_seconds : ℚ
  nodes : Nat
  path : List Node
deriving DecidableEq, Repr

/-- The record appended for a successful run (`dist / 1000` km, exactly). -/
def mkRecord (algo : String) (r : RunResult) : AlgoRecord :=
  ⟨algo, (r.length : ℚ) / 1000, (r.elapsed : ℚ), r.path.length, r.path⟩

/-- `compare_all_algorithms` from `src/app.py`: run the four algorithms in
the fixed order, catching any failure (which is only warned about) and
appending a record for each success. -/
def compare_all_algorithms (G : Graph) (start_node end_node : Node)
    (times : String → ℤ) : List AlgoRecord :=
  algorithms_list.foldl
    (fun results algo =>
      match run_algorithm G start_node end_node algo (times algo) with
      | .ok r => results ++ [mkRecord algo r]
      | .error _ => results) []

/-- `idxmin` of pandas: the first record minimising `f`. -/
def idxmin (f : AlgoRecord → ℚ) : List AlgoRecord → Option AlgoRecord
  | [] => none
  | r :: rs =>
    match idxmin f rs with
    | none => some r
    | some b => if f r ≤ f b then some r else some b

/-- The "Fastest Algorithm" aggregate, derived only when results exist. -/
def fastest_algorithm (results : List AlgoRecord) : Option String :=
  (idxmin (fun r => r.time_seconds) results).map (fun r => r.algorithm)

/-- The "Shortest Distance" aggregate, derived only when results exist. -/
def shortest_algorithm (results : List AlgoRecord) : Option String :=
  (idxmin (fun r => r.distance_km) results).map (fun r => r.algorithm)

/-! ## Standalone wrappers (`src/algorithms/`)

Each wrapper catches only `nx.NetworkXNoPath`, turning it into `None`;
other failures (node-not-found, negative cycle) propagate. -/

/-- `dijkstra_shortest_path` from `src/algorithms/dijkstra.py`. -/
def dijkstra_shortest_path (G : Graph) (source target : Node) :
    Except NxError (Option (List Node)) :=
  match nx_dijkstra_path G source target with
  | .ok p => .ok (some p)
  | .error .noPath => .ok none
  | .error e => .error e

/-- `astar_shortest_path` from `src/algorithms/astar.py` (which, like the
harness, passes no heuristic to `nx.astar_path`). -/
def astar_shortest_path (G : Graph) (source target : Node) :
    Except NxError (Option (List Node)) :=
  match nx_astar_path G none source target with
  | .ok p => .ok (some p)
  | .error .noPath => .ok none
  | .error e => .error e

/-- `bellman_ford_shortest_path` from `src/algorithms/bellman_ford.py`. -/
def bellman_ford_shortest_path (G : Graph) (source target : Node) :
    Except NxError (Option (List Node)) :=
  match nx_bellman_ford_path G source target with
  | .ok p => .ok (some p)
  | .error .noPath => .ok none
  | .error e => .error e

/-! ## The spec's reading of the A* heuristic (claim C3)

The spec asserts that the A* invocation uses a positively scaled
great-circle distance on node coordinates as its heuristic, degrading to
zero where coordinates are missing.  Stated over the heuristic the code's
call actually runs with (`effective_astar_heuristic none`, since
`src/app.py` passes no heuristic argument). -/
def ClaimC3 : Prop :=
  ∃ (gc : ℚ × ℚ → ℚ × ℚ → ℚ) (c : ℚ), 0 < c ∧ (∀ a b, a ≠ b → 0 < gc a b) ∧
    (∀ (G : Graph) (tgt x : Node) (px pt : ℚ × ℚ), G.coords x = some px →
      G.coords tgt = some pt → ((effective_astar_heuristic none x : ℤ) : ℚ) = c * gc px pt) ∧
    (∀ (G : Graph) (x : Node), G.coords x = none →
      effective_astar_heuristic none x = 0)

/-! ## Concrete graphs used as witnesses and counterexamples -/

/-- The spec's §8 example: A→B (5), A→C (2), C→B (2), B→D (1), with
A,B,C,D as 0,1,2,3. -/
def Gtest : Graph :=
  ⟨[0, 1, 2, 3], [⟨0, 1, 5⟩, ⟨0, 2, 2⟩, ⟨2, 1, 2⟩, ⟨1, 3, 1⟩], fun _ => none⟩

/-- Two parallel edges 0→1 of lengths 5 (key 0) and 2 (key 1). -/
def Gmulti : Graph :=
  ⟨[0, 1], [⟨0, 1, 5⟩, ⟨0, 1, 2⟩], fun _ => none⟩

/-- A negative cycle 0→1→0 reachable from 0; node 2 is unreachable. -/
def GnegIso : Graph :=
  ⟨[0, 1, 2], [⟨0, 1, 1⟩, ⟨1, 0, -3⟩], fun _ => none⟩

/-- A negative cycle 0→1→0 on the way to target 2. -/
def GnegPath : Graph :=
  ⟨[0, 1, 2], [⟨0, 1, 1⟩, ⟨1, 0, -3⟩, ⟨1, 2, 1⟩], fun _ => none⟩

/-- Two coordinate-bearing nodes at distinct coordinates. -/
def Gcoords : Graph :=
  ⟨[0, 1], [⟨0, 1, 1⟩],
    fun n => if n = 0 then some (0, 0) else if n = 1 then some (1, 0) else none⟩

/-- One edge 0→1; node 2 unreachable, no negative weights. -/
def Giso : Graph := ⟨[0, 1, 2], [⟨0, 1, 1⟩], fun _ => none⟩

section HarnessLemmas

theorem run_algorithm_dijkstra_def (G : Graph) (s t : Node) (e : ℤ) :
    run_algorithm G s t "Dijkstra" e =
      match nx_dijkstra_path G s t with
      | .ok p => .ok ⟨p, nx_path_weight G p, e⟩
      | .error err => .error (.nxerr err) := rfl

theorem run_algorithm_astar_def (G : Graph) (s t : Node) (e : ℤ) :
    run_algorithm G s t "A*" e =
      match nx_astar_path G none s t with
      | .ok p => .ok ⟨p, nx_path_weight G p, e⟩
      | .error err => .error (.nxerr err) := rfl

theorem run_algorithm_bfs_def (G : Graph) (s t : Node) (e : ℤ) :
    run_algorithm G s t "BFS" e =
      match nx_bfs_path G s t with
      | .ok p => .ok ⟨p, edge0Weight G p, e⟩
      | .error err => .error (.nxerr err) := rfl

theorem run_algorithm_bf_def (G : Graph) (s t : Node) (e : ℤ) :
    run_algorithm G s t "Bellman-Ford" e =
      match nx_bellman_ford_path G s t with
      | .ok p => .ok ⟨p, nx_path_weight G p, e⟩
      | .error err => .error (.nxerr err) := rfl

theorem run_algorithm_unknown (G : Graph) (s t : Node) (e : ℤ) (algorithm : String)
    (h1 : algorithm ≠ "Dijkstra") (h2 : algorithm ≠ "A*") (h3 : algorithm ≠ "BFS")
    (h4 : algorithm ≠ "Bellman-Ford") :
    run_algorithm G s t algorithm e = .error .invalidAlgorithm := by
  unfold run_algorithm
  rw [if_neg h1, if_neg h2, if_neg h3, if_neg h4]

theorem nonneg_noNegCycle (G : Graph) (hnn : NonnegEdges G) (s : Node) :
    NoNegCycleFrom G s := fun _ q _ _ => walkWeight_nonneg G hnn q

theorem not_reach_of_bfs_noPath (G : Graph) (s t : Node) (hWf : Wf G)
    (hs : s ∈ G.nodes) (ht : t ∈ G.nodes)
    (h : nx_bfs_path G s t = .error .noPath) : ¬ Reach G s t := by
  intro hr
  rcases nx_bfs_ok G s t hWf hs ht hr with ⟨p, hok, _⟩
  rw [h] at hok
  exact absurd hok (by simp)

theorem foldl_run_filterMap (G : Graph) (s t : Node) (times : String → ℤ) :
    ∀ (l : List String) (acc : List AlgoRecord),
      l.foldl (fun results algo =>
        match run_algorithm G s t algo (times algo) with
        | .ok r => results ++ [mkRecord algo r]
        | .error _ => results) acc =
      acc ++ l.filterMap (fun algo =>
        match run_algorithm G s t algo (times algo) with
        | .ok r => some (mkRecord algo r)
        | .error _ => none)
  | [], acc => by simp
  | a :: l, acc => by
    rw [List.foldl_cons, List.filterMap_cons]
    rcases hrun : run_algorithm G s t a (times a) with err | r
    · simp only [hrun]
      exact foldl_run_filterMap G s t times l acc
    · simp only [hrun]
      rw [foldl_run_filterMap G s t times l (acc ++ [mkRecord a r])]
      simp

theorem filterMap_run_names (G : Graph) (s t : Node) (times : String → ℤ) :
    ∀ l : List String,
      (l.filterMap (fun algo =>
        match run_algorithm G s t algo (times algo) with
        | .ok r => some (mkRecord algo r)
        | .error _ => none)).map (fun rec => rec.algorithm) =
      l.filter (fun algo =>
        match run_algorithm G s t algo (times algo) with
        | .ok _ => true
        | .error _ => false)
  | [] => rfl
  | a :: l => by
    rw [List.filterMap_cons, List.filter_cons]
    rcases hrun : run_algorithm G s t a (times a) with err | r
    · simp only [hrun]
      exact filterMap_run_names G s t times l
    · simp only [hrun, List.map_cons, if_pos]
      rw [filterMap_run_names G s t times l]
      rfl

end HarnessLemmas

/-! ## The claims -/

/-- Claim C1, as amended: the harness computes the reported total distance
from (graph, path) by `nx.path_weight` — summing the minimum-length
parallel edge of each consecutive pair — for Dijkstra, A* and
Bellman-Ford, but by summing the index-0 parallel edge of each
consecutive pair for BFS; on multigraphs these are different functions of
(graph, path). -/
theorem C1_harness_distance (G : Graph) (s t : Node) (e : ℤ) (r : RunResult) :
    ((run_algorithm G s t "Dijkstra" e = .ok r ∨
      run_algorithm G s t "A*" e = .ok r ∨
      run_algorithm G s t "Bellman-Ford" e = .ok r) →
      r.length = nx_path_weight G r.path) ∧
    (run_algorithm G s t "BFS" e = .ok r →
      r.length = edge0Weight G r.path) := by
  constructor
  · intro hok
    rcases hok with h | h | h
    · rw [run_algorithm_dijkstra_def] at h
      split at h
      · injection h with h2
        rw [← h2]
      · exact absurd h (by simp)
    · rw [run_algorithm_astar_def] at h
      split at h
      · injection h with h2
        rw [← h2]
      · exact absurd h (by simp)
    · rw [run_algorithm_bf_def] at h
      split at h
      · injection h with h2
        rw [← h2]
      · exact absurd h (by simp)
  · intro h
    rw [run_algorithm_bfs_def] at h
    split at h
    · injection h with h2
      rw [← h2]
    · exact absurd h (by simp)

/-- Claim C1 counterexample: on a multigraph with parallel edges 0→1 of
lengths 5 (index 0) and 2, the harness reports 5 for the BFS path [0, 1]
but 2 for the same path produced by Dijkstra, and `nx.path_weight` of that
path is 2 — so the reported distance is not the minimum-length-edge sum
for BFS, and is not the same function of (graph, path) across
algorithms. -/
theorem C1_counterexample :
    run_algorithm Gmulti 0 1 "BFS" 0 = .ok ⟨[0, 1], 5, 0⟩ ∧
    run_algorithm Gmulti 0 1 "Dijkstra" 0 = .ok ⟨[0, 1], 2, 0⟩ ∧
    nx_path_weight Gmulti [0, 1] = 2 ∧ (5 : ℤ) ≠ 2 := by
  refine ⟨by decide, by decide, by decide, by decide⟩

/-- Claim C1 witness: the amended claim applied to the multigraph runs. -/
theorem C1_witness :
    run_algorithm Gmulti 0 1 "Dijkstra" 0 = .ok ⟨[0, 1], 2, 0⟩ ∧
    (⟨[0, 1], 2, 0⟩ : RunResult).length =
      nx_path_weight Gmulti (⟨[0, 1], 2, 0⟩ : RunResult).path ∧
    run_algorithm Gmulti 0 1 "BFS" 0 = .ok ⟨[0, 1], 5, 0⟩ ∧
    (⟨[0, 1], 5, 0⟩ : RunResult).length =
      edge0Weight Gmulti (⟨[0, 1], 5, 0⟩ : RunResult).path :=
  ⟨by decide,
   (C1_harness_distance Gmulti 0 1 0 ⟨[0, 1], 2, 0⟩).1 (Or.inl (by decide)),
   by decide,
   (C1_harness_distance Gmulti 0 1 0 ⟨[0, 1], 5, 0⟩).2 (by decide)⟩

/-- Claim C2: on a well-formed graph with non-negative edge lengths and a
target reachable from the source, Dijkstra, A* and Bellman-Ford all
succeed with the same reported total distance, and BFS succeeds with a
path whose total length — the minimum-parallel-edge sum `nx.path_weight`
computes, the spec's notion of total distance — is at least that common
value (the distance the harness reports for BFS dominates it in turn). -/
theorem C2_optimality_agreement (G : Graph) (s t : Node) (e₁ e₂ e₃ e₄ : ℤ)
    (hWf : Wf G) (hnn : NonnegEdges G) (hs : s ∈ G.nodes) (ht : t ∈ G.nodes)
    (hr : Reach G s t) :
    ∃ (p₁ p₂ p₃ p₄ : List Node) (d db : ℤ),
      run_algorithm G s t "Dijkstra" e₁ = .ok ⟨p₁, d, e₁⟩ ∧
      run_algorithm G s t "A*" e₂ = .ok ⟨p₂, d, e₂⟩ ∧
      run_algorithm G s t "Bellman-Ford" e₃ = .ok ⟨p₃, d, e₃⟩ ∧
      run_algorithm G s t "BFS" e₄ = .ok ⟨p₄, db, e₄⟩ ∧
      d ≤ nx_path_weight G p₄ ∧ nx_path_weight G p₄ ≤ db := by
  rcases nx_dijkstra_ok G s t hWf hnn hs ht hr with ⟨p₁, hok1, hw1, hopt1⟩
  have hnc := nonneg_noNegCycle G hnn s
  rcases nx_bf_ok G s t hWf hs ht hnc hr with ⟨p₃, hok3, hw3, hopt3⟩
  rcases nx_bfs_ok G s t hWf hs ht hr with ⟨p₄, hok4, hw4⟩
  have hd3 : walkWeight G p₃ = walkWeight G p₁ :=
    le_antisymm (hopt3 p₁ hw1) (hopt1 p₃ hw3)
  refine ⟨p₁, p₁, p₃, p₄, walkWeight G p₁, edge0Weight G p₄, ?_, ?_, ?_, ?_, ?_, ?_⟩
  · rw [run_algorithm_dijkstra_def, hok1]
    rfl
  · rw [run_algorithm_astar_def, nx_astar_none_eq_dijkstra, hok1]
    rfl
  · rw [run_algorithm_bf_def, hok3]
    show Except.ok (RunResult.mk p₃ (walkWeight G p₃) e₃) =
      Except.ok (RunResult.mk p₃ (walkWeight G p₁) e₃)
    rw [hd3]
  · rw [run_algorithm_bfs_def, hok4]
  · exact hopt1 p₄ hw4
  · exact edge0Weight_ge_walkWeight G p₄ hw4.2.2

/-- Claim C2 witness: the spec's §8 example graph, source A (0) and
target D (3). -/
theorem C2_witness :
    Wf Gtest ∧ NonnegEdges Gtest ∧ 0 ∈ Gtest.nodes ∧ 3 ∈ Gtest.nodes ∧
    Reach Gtest 0 3 ∧
    (∃ (p₁ p₂ p₃ p₄ : List Node) (d db : ℤ),
      run_algorithm Gtest 0 3 "Dijkstra" 0 = .ok ⟨p₁, d, 0⟩ ∧
      run_algorithm Gtest 0 3 "A*" 0 = .ok ⟨p₂, d, 0⟩ ∧
      run_algorithm Gtest 0 3 "Bellman-Ford" 0 = .ok ⟨p₃, d, 0⟩ ∧
      run_algorithm Gtest 0 3 "BFS" 0 = .ok ⟨p₄, db, 0⟩ ∧
      d ≤ nx_path_weight Gtest p₄ ∧ nx_path_weight Gtest p₄ ≤ db) :=
  ⟨by decide, by decide, by decide, by decide, ⟨[0, 1, 3], by decide⟩,
    C2_optimality_agreement Gtest 0 3 0 0 0 0 (by decide) (by decide)
      (by decide) (by decide) ⟨[0, 1, 3], by decide⟩⟩

/-- Claim C3 counterexample: the spec's asserted heuristic is impossible —
the A* invocation of the harness passes no heuristic, so the search runs
with the identically-zero heuristic, which cannot be a positively scaled
distance between the distinct coordinates the graph `Gcoords` carries. -/
theorem C3_counterexample : ¬ ClaimC3 := by
  rintro ⟨gc, c, hc, hpos, hcoord, _⟩
  have h0 := hcoord Gcoords 1 0 (0, 0) (1, 0) rfl rfl
  have hne : ((0 : ℚ), (0 : ℚ)) ≠ ((1 : ℚ), (0 : ℚ)) := by
    intro hcon
    rw [Prod.mk.injEq] at hcon
    exact absurd hcon.1 (by norm_num)
  have hgc : 0 < gc (0, 0) (1, 0) := hpos (0, 0) (1, 0) hne
  have hzero : ((effective_astar_heuristic none 0 : ℤ) : ℚ) = 0 := rfl
  rw [hzero] at h0
  have hprod := mul_pos hc hgc
  rw [← h0] at hprod
  exact lt_irrefl 0 hprod

/-- Claim C3, as amended: the A* invocation supplies no heuristic, so the
search runs with the zero heuristic for every node — regardless of
coordinate availability — and therefore coincides with Dijkstra on every
input. -/
theorem C3_zero_heuristic (G : Graph) (s t : Node) :
    (∀ x : Node, effective_astar_heuristic none x = 0) ∧
    nx_astar_path G none s t = nx_dijkstra_path G s t :=
  ⟨fun _ => rfl, rfl⟩

/-- Claim C4, as amended: when the source differs from the target and a
negative-weight cycle lies on a source-to-target route (it is reachable
from the source and reaches the target), the Bellman-Ford run fails with
the negative-cycle error — distinct from the no-path outcome — and so
does the standalone wrapper, which does not catch that error. -/
theorem C4_negcycle_detected (G : Graph) (s t : Node) (e : ℤ)
    (hs : s ∈ G.nodes) (ht : t ∈ G.nodes) (hst : s ≠ t) (x : Node)
    (c : List Node) (hcyc : IsWalkFrom G x x c) (hneg : walkWeight G c < 0)
    (hrx : Reach G s x) (hxt : Reach G x t) :
    run_algorithm G s t "Bellman-Ford" e = .error (.nxerr .negativeCycle) ∧
    bellman_ford_shortest_path G s t = .error .negativeCycle ∧
    NxError.negativeCycle ≠ NxError.noPath := by
  have hbf := nx_bf_negCycle G s t hs ht hst x c hcyc hneg hrx
  refine ⟨?_, ?_, by decide⟩
  · rw [run_algorithm_bf_def, hbf]
  · unfold bellman_ford_shortest_path
    rw [hbf]

/-- Claim C4 counterexample: with source = target = 0 sitting on a
reachable negative cycle, Bellman-Ford returns the trivial path [0]
rather than failing with the negative-cycle condition (the
source-equals-target early return wins). -/
theorem C4_counterexample :
    IsWalkFrom GnegPath 0 0 [0, 1, 0] ∧ walkWeight GnegPath [0, 1, 0] < 0 ∧
    Reach GnegPath 0 0 ∧
    run_algorithm GnegPath 0 0 "Bellman-Ford" 0 = .ok ⟨[0], 0, 0⟩ :=
  ⟨by decide, by decide, ⟨[0], by decide⟩, by decide⟩

/-- Claim C4 witness: the amended claim at the concrete negative-cycle
graph with distinct source 0 and target 2. -/
theorem C4_witness :
    (0 ∈ GnegPath.nodes ∧ 2 ∈ GnegPath.nodes ∧ (0 : Node) ≠ 2 ∧
      IsWalkFrom GnegPath 0 0 [0, 1, 0] ∧ walkWeight GnegPath [0, 1, 0] < 0 ∧
      Reach GnegPath 0 0 ∧ Reach GnegPath 0 2) ∧
    run_algorithm GnegPath 0 2 "Bellman-Ford" 0 = .error (.nxerr .negativeCycle) ∧
    bellman_ford_shortest_path GnegPath 0 2 = .error .negativeCycle ∧
    NxError.negativeCycle ≠ NxError.noPath :=
  ⟨⟨by decide, by decide, by decide, by decide, by decide,
    ⟨[0], by decide⟩, ⟨[0, 1, 2], by decide⟩⟩,
   C4_negcycle_detected GnegPath 0 2 0 (by decide) (by decide) (by decide)
     0 [0, 1, 0] (by decide) (by decide) ⟨[0], by decide⟩ ⟨[0, 1, 2], by decide⟩⟩

/-- Claim C5: `compare_all_algorithms` runs the four algorithms in the
fixed order Dijkstra, A*, BFS, Bellman-Ford; every failure is caught (the
fold is total) and its algorithm contributes no record, successes
contribute their record in order — the result is exactly the ordered
filter of the successful runs, so failed algorithms are excluded from the
result list and hence from the fastest/shortest aggregates computed over
it. -/
theorem C5_partial_failure_tolerance (G : Graph) (s t : Node)
    (times : String → ℤ) :
    compare_all_algorithms G s t times =
      algorithms_list.filterMap (fun algo =>
        match run_algorithm G s t algo (times algo) with
        | .ok r => some (mkRecord algo r)
        | .error _ => none) ∧
    (compare_all_algorithms G s t times).map (fun rec => rec.algorithm) =
      algorithms_list.filter (fun algo =>
        match run_algorithm G s t algo (times algo) with
        | .ok _ => true
        | .error _ => false) := by
  have h1 := foldl_run_filterMap G s t times algorithms_list []
  rw [List.nil_append] at h1
  refine ⟨h1, ?_⟩
  rw [show compare_all_algorithms G s t times =
    algorithms_list.foldl (fun results algo =>
      match run_algorithm G s t algo (times algo) with
      | .ok r => results ++ [mkRecord algo r]
      | .error _ => results) [] from rfl]
  rw [h1]
  exact filterMap_run_names G s t times algorithms_list

/-- Claim C6, as amended: when no negative cycle is reachable from the
source (in particular for non-negative lengths) and the target is
unreachable, all four algorithms return the no-path error, and the
comparison produces an empty result list with no fastest or shortest
aggregate. -/
theorem C6_unreachable_all_fail (G : Graph) (s t : Node) (times : String → ℤ)
    (e : ℤ) (hWf : Wf G) (hs : s ∈ G.nodes) (ht : t ∈ G.nodes)
    (hnc : NoNegCycleFrom G s) (hnr : ¬ Reach G s t) :
    (∀ algo ∈ algorithms_list,
      run_algorithm G s t algo e = .error (.nxerr .noPath)) ∧
    compare_all_algorithms G s t times = [] ∧
    fastest_algorithm (compare_all_algorithms G s t times) = none ∧
    shortest_algorithm (compare_all_algorithms G s t times) = none := by
  have hd : nx_dijkstra_path G s t = .error .noPath :=
    nx_dijkstra_noPath G s t hs ht hnr
  have hb : nx_bfs_path G s t = .error .noPath :=
    nx_bfs_noPath G s t hs ht hnr
  have hf : nx_bellman_ford_path G s t = .error .noPath :=
    nx_bf_noPath G s t hWf hs ht hnc hnr
  have hall : ∀ algo ∈ algorithms_list,
      ∀ e2 : ℤ, run_algorithm G s t algo e2 = .error (.nxerr .noPath) := by
    intro algo halgo e2
    rcases (by simpa [algorithms_list] using halgo :
      algo = "Dijkstra" ∨ algo = "A*" ∨ algo = "BFS" ∨ algo = "Bellman-Ford")
      with rfl | rfl | rfl | rfl
    · rw [run_algorithm_dijkstra_def, hd]
    · rw [run_algorithm_astar_def, nx_astar_none_eq_dijkstra, hd]
    · rw [run_algorithm_bfs_def, hb]
    · rw [run_algorithm_bf_def, hf]
  have hcmp : compare_all_algorithms G s t times = [] := by
    unfold compare_all_algorithms algorithms_list
    rw [List.foldl_cons, List.foldl_cons, List.foldl_cons, List.foldl_cons,
      List.foldl_nil]
    rw [hall "Dijkstra" (by decide) (times "Dijkstra"),
      hall "A*" (by decide) (times "A*"), hall "BFS" (by decide) (times "BFS"),
      hall "Bellman-Ford" (by decide) (times "Bellman-Ford")]
  refine ⟨fun algo halgo => hall algo halgo e, hcmp, ?_, ?_⟩
  · rw [hcmp]; rfl
  · rw [hcmp]; rfl

/-- Claim C6 counterexample: the original claim fails — with a negative
cycle reachable from the source and an unreachable target, Bellman-Ford
reports the negative-cycle failure, not the no-path outcome. -/
theorem C6_counterexample :
    ¬ Reach GnegIso 0 2 ∧
    run_algorithm GnegIso 0 2 "Bellman-Ford" 0 = .error (.nxerr .negativeCycle) ∧
    NxError.negativeCycle ≠ NxError.noPath :=
  ⟨not_reach_of_bfs_noPath GnegIso 0 2 (by decide) (by decide) (by decide)
      (by decide),
   by decide, by decide⟩

/-- Claim C6 witness: the amended claim at a concrete non-negative graph
with an unreachable target. -/
theorem C6_witness :
    Wf Giso ∧ 0 ∈ Giso.nodes ∧ 2 ∈ Giso.nodes ∧ ¬ Reach Giso 0 2 ∧
    run_algorithm Giso 0 2 "Dijkstra" 0 = .error (.nxerr .noPath) ∧
    compare_all_algorithms Giso 0 2 (fun _ => 0) = [] ∧
    fastest_algorithm (compare_all_algorithms Giso 0 2 (fun _ => 0)) = none ∧
    shortest_algorithm (compare_all_algorithms Giso 0 2 (fun _ => 0)) = none :=
  ⟨by decide, by decide, by decide,
   not_reach_of_bfs_noPath Giso 0 2 (by decide) (by decide) (by decide)
     (by decide),
   (C6_unreachable_all_fail Giso 0 2 (fun _ => 0) 0 (by decide) (by decide)
       (by decide) (nonneg_noNegCycle Giso (by decide) 0)
       (not_reach_of_bfs_noPath Giso 0 2 (by decide) (by decide) (by decide)
         (by decide))).1 "Dijkstra" (by decide),
   (C6_unreachable_all_fail Giso 0 2 (fun _ => 0) 0 (by decide) (by decide)
       (by decide) (nonneg_noNegCycle Giso (by decide) 0)
       (not_reach_of_bfs_noPath Giso 0 2 (by decide) (by decide) (by decide)
         (by decide))).2.1,
   (C6_unreachable_all_fail Giso 0 2 (fun _ => 0) 0 (by decide) (by decide)
       (by decide) (nonneg_noNegCycle Giso (by decide) 0)
       (not_reach_of_bfs_noPath Giso 0 2 (by decide) (by decide) (by decide)
         (by decide))).2.2.1,
   (C6_unreachable_all_fail Giso 0 2 (fun _ => 0) 0 (by decide) (by decide)
       (by decide) (nonneg_noNegCycle Giso (by decide) 0)
       (not_reach_of_bfs_noPath Giso 0 2 (by decide) (by decide) (by decide)
         (by decide))).2.2.2⟩

/-- Claim C7: running any of the four algorithms with source equal to
target (a node of the graph) returns the single-node path with reported
distance 0. -/
theorem C7_trivial_self_path (G : Graph) (s : Node) (e : ℤ)
    (algorithm : String) (hs : s ∈ G.nodes) (ha : algorithm ∈ algorithms_list) :
    run_algorithm G s s algorithm e = .ok ⟨[s], 0, e⟩ := by
  rcases (by simpa [algorithms_list] using ha :
    algorithm = "Dijkstra" ∨ algorithm = "A*" ∨ algorithm = "BFS" ∨
      algorithm = "Bellman-Ford") with rfl | rfl | rfl | rfl
  · rw [run_algorithm_dijkstra_def,
      show nx_dijkstra_path G s s = .ok [s] from
        weightedSearch_self G zeroHeuristic s hs]
    rfl
  · rw [run_algorithm_astar_def,
      show nx_astar_path G none s s = .ok [s] from
        weightedSearch_self G (effective_astar_heuristic none) s hs]
    rfl
  · rw [run_algorithm_bfs_def, nx_bfs_self G s hs]
    rfl
  · rw [run_algorithm_bf_def, nx_bf_self G s hs]
    rfl

/-- Claim C7 witness: the trivial path at node 0 of the example graph. -/
theorem C7_witness :
    0 ∈ Gtest.nodes ∧ "Dijkstra" ∈ algorithms_list ∧
    run_algorithm Gtest 0 0 "Dijkstra" 5 = .ok ⟨[0], 0, 5⟩ :=
  ⟨by decide, by decide,
   C7_trivial_self_path Gtest 0 5 "Dijkstra" (by decide) (by decide)⟩

/-- Claim C8: two invocations of the harness on the same (graph, source,
target, algorithm name) return the same path and the same total distance,
whatever the elapsed wall-clock values of the two runs. -/
theorem C8_deterministic (G : Graph) (s t : Node) (algorithm : String)
    (e₁ e₂ : ℤ) :
    (run_algorithm G s t algorithm e₁).map (fun r => (r.path, r.length)) =
    (run_algorithm G s t algorithm e₂).map (fun r => (r.path, r.length)) := by
  unfold run_algorithm
  split_ifs
  · cases nx_dijkstra_path G s t <;> rfl
  · cases nx_astar_path G none s t <;> rfl
  · cases nx_bfs_path G s t <;> rfl
  · cases nx_bellman_ford_path G s t <;> rfl
  · rfl

/-- Claim C9: an unknown algorithm name makes the harness fail with the
invalid-argument error of the dispatch — no search outcome is produced,
and the error is distinct from the no-path failure. -/
theorem C9_invalid_algorithm (G : Graph) (s t : Node) (e : ℤ)
    (algorithm : String) (h : algorithm ∉ algorithms_list) :
    run_algorithm G s t algorithm e = .error .invalidAlgorithm ∧
    (RunError.invalidAlgorithm ≠ RunError.nxerr NxError.noPath) := by
  simp only [algorithms_list, List.mem_cons, List.mem_singleton, not_or] at h
  rcases h with ⟨h1, h2, h3, h4⟩
  refine ⟨run_algorithm_unknown G s t e algorithm h1 h2 h3 ?_, by decide⟩
  simpa using h4

/-- Claim C9 witness: the name "Floyd". -/
theorem C9_witness :
    "Floyd" ∉ algorithms_list ∧
    run_algorithm Gtest 0 3 "Floyd" 0 = .error .invalidAlgorithm ∧
    (RunError.invalidAlgorithm ≠ RunError.nxerr NxError.noPath) :=
  ⟨by decide,
   (C9_invalid_algorithm Gtest 0 3 0 "Floyd" (by decide)).1,
   (C9_invalid_algorithm Gtest 0 3 0 "Floyd" (by decide)).2⟩

/-- Claim C10: the standalone A* wrapper (which supplies no heuristic, so
its search runs with the zero heuristic) behaves like the standalone
Dijkstra wrapper — it returns None exactly when Dijkstra does, and when
both return paths the total lengths coincide. -/
theorem C10_astar_refines_dijkstra (G : Graph) (s t : Node) :
    (astar_shortest_path G s t = .ok none ↔
      dijkstra_shortest_path G s t = .ok none) ∧
    (∀ p q, astar_shortest_path G s t = .ok (some p) →
      dijkstra_shortest_path G s t = .ok (some q) →
      walkWeight G p = walkWeight G q) := by
  have heq : astar_shortest_path G s t = dijkstra_shortest_path G s t := rfl
  constructor
  · rw [heq]
  · intro p q hp hq
    rw [heq, hq] at hp
    injection hp with hp2
    injection hp2 with hp3
    rw [hp3]

/-- Claim C10 witness: both wrappers on the example graph. -/
theorem C10_witness :
    astar_shortest_path Gtest 0 3 = .ok (some [0, 2, 1, 3]) ∧
    dijkstra_shortest_path Gtest 0 3 = .ok (some [0, 2, 1, 3]) ∧
    walkWeight Gtest [0, 2, 1, 3] = walkWeight Gtest [0, 2, 1, 3] :=
  ⟨by decide, by decide,
   (C10_astar_refines_dijkstra Gtest 0 3).2 [0, 2, 1, 3] [0, 2, 1, 3]
     (by decide) (by decide)⟩

end PathViz
